import Mathlib

/-!
# Verification of the mapping-ingestion engine

Shallow embedding of `src/services/intelligentMappingAnalyzer.ts`
(class `IntelligentMappingAnalyzer`) together with the pieces of
`src/types.ts` it uses (`ProductLayer`, `TableMetadata`, `SourceAsset`,
`FieldMapping`).  Strings are modelled as `String` / `List Char`; the
JavaScript regular expressions used by the parser are modelled by
hand-written scanners that reproduce the exact backtracking behaviour of
the original patterns on their input class (ASCII text; the JS
case-mapping and whitespace classes are modelled by their ASCII parts,
which coincide with JS semantics on all ASCII inputs).

JS `Map` objects (insertion-ordered, unique keys) are modelled as
association lists where `setA` replaces in place or appends at the end,
exactly mirroring `Map.prototype.set`.
-/

namespace CreditRisk

/-! ## Character classes (JS `\w`, `\s`, `[A-Za-z0-9_]`, `[:\s_-]`, `[\s|]`) -/

/-- `[A-Za-z0-9_]`, i.e. JS `\w` (ASCII). -/
def isWordChar (c : Char) : Bool := c.isAlphanum || c == '_'

/-- ASCII part of JS `\s` (also used by `String.prototype.trim`). -/
def isJsSpace (c : Char) : Bool :=
  c == ' ' || c == '\t' || c == '\n' || c == '\r' || c == '\x0b' || c == '\x0c'

/-- The class `[:\s_-]` from the standard-header regex. -/
def isSepChar (c : Char) : Bool := c == ':' || isJsSpace c || c == '_' || c == '-'

/-- The class `[\s|]` from `line.split(/[\s|]+/)`. -/
def isWsPipe (c : Char) : Bool := isJsSpace c || c == '|'

/-! ## List-of-char utilities -/

/-- Case-insensitive match of an (uppercase) token at the head of `s`;
returns the remaining characters on success. -/
def matchCI : List Char → List Char → Option (List Char)
  | [], s => some s
  | _ :: _, [] => none
  | t :: ts, c :: cs => if c.toUpper == t then matchCI ts cs else none

/-- Decidable substring test (JS `String.prototype.includes`). -/
def subOf (pat : List Char) : List Char → Bool
  | [] => pat.isEmpty
  | c :: rest => pat.isPrefixOf (c :: rest) || subOf pat rest

/-- JS `String.prototype.trim` (ASCII whitespace). -/
def jsTrim (l : List Char) : List Char :=
  ((l.dropWhile isJsSpace).reverse.dropWhile isJsSpace).reverse

/-- JS `String.prototype.split` with a single-character separator:
keeps empty fragments, `"".split(sep) = [""]`. -/
def splitOnChGo (sep : Char) : List Char → List Char → List (List Char)
  | [], acc => [acc.reverse]
  | c :: rest, acc =>
    if c == sep then acc.reverse :: splitOnChGo sep rest []
    else splitOnChGo sep rest (c :: acc)

def splitOnCh (sep : Char) (l : List Char) : List (List Char) := splitOnChGo sep l []

/-- Maximal runs of non-separator characters.  JS `split(/[\s|]+/)` also
yields empty fragments at the string edges, but those are removed by the
`length > 1` filter applied right after, so runs give the same
`potentialFields`. -/
def splitRunsGo (isSep : Char → Bool) : List Char → List Char → List (List Char)
  | [], acc => if acc.isEmpty then [] else [acc.reverse]
  | c :: rest, acc =>
    if isSep c then
      (if acc.isEmpty then splitRunsGo isSep rest []
       else acc.reverse :: splitRunsGo isSep rest [])
    else splitRunsGo isSep rest (c :: acc)

def splitRuns (isSep : Char → Bool) (l : List Char) : List (List Char) :=
  splitRunsGo isSep l []

def upperChars (l : List Char) : List Char := l.map Char.toUpper

/-! ## Data model (`src/types.ts`)

`checkTypes` is always the empty array in the analyzer and is omitted;
optional fields never set by the analyzer are omitted likewise. -/

inductive ProductLayer
  | ODP | FDP | CDP
deriving DecidableEq, Repr

/-- The enum string values from `types.ts`. -/
def ProductLayer.display : ProductLayer → String
  | .ODP => "ODP (Origination)"
  | .FDP => "FDP (Foundational)"
  | .CDP => "CDP (Common/Consumption)"

structure FieldMapping where
  sourceField : String
  targetField : String
  transformation : String
deriving DecidableEq, Repr

structure SourceAsset where
  name : String
  mappings : List FieldMapping
deriving DecidableEq, Repr

structure TableMetadata where
  id : String
  layer : ProductLayer
  targetName : String
  columns : List String
  primaryKeys : List String
  sources : List SourceAsset
deriving DecidableEq, Repr

structure EnhancedMappingRow where
  sourceTable : String
  sourceField : String
  targetTable : String
  targetField : String
  dataType : String
  transformation : Option String
  sourceLayer : Option ProductLayer
  targetLayer : Option ProductLayer
deriving DecidableEq, Repr

structure ParsedTableFragment where
  name : String
  layer : ProductLayer
  fields : List String
deriving DecidableEq, Repr

/-! ## Layer classifier (`detectLayer`) -/

def lowerStr (s : String) : String := String.mk (s.data.map Char.toLower)

def startsWithS (s pat : String) : Bool := pat.data.isPrefixOf s.data

def containsS (s pat : String) : Bool := subOf pat.data s.data

/-- The consumption-marker check from `detectLayer` (first `if`). -/
def cdpMarkers (lower : String) : Bool :=
  startsWithS lower "cdp" || containsS lower "_cdp" || containsS lower "consumption"

/-- The foundational-marker check from `detectLayer` (second `if`). -/
def fdpMarkers (lower : String) : Bool :=
  startsWithS lower "fdp" || containsS lower "_fdp" || containsS lower "foundation"

/-- `private detectLayer(tableName: string): ProductLayer`. -/
def detectLayer (tableName : String) : ProductLayer :=
  let lower := lowerStr tableName
  if cdpMarkers lower then .CDP
  else if fdpMarkers lower then .FDP
  else .ODP

/-! ## Regex scanners

Three patterns occur in `parseMarkdownFormat`:

1. `/\b(ODP|FDP|CDP|RAW|FOUNDATION|CONSUMPTION)\.([A-Za-z0-9_]+)\b/gi` with
   `matchAll`;
2. `/^(ODP|FDP|CDP|RAW|FOUNDATION|CONSUMPTION)[:\s_-]+(\w+)/i` with `match`;
3. `/([A-Za-z0-9_]+)\.?([A-Za-z0-9_]*)\s*[-=]>\s*([A-Za-z0-9_]+)\.?([A-Za-z0-9_]*)/`
   with `match`.

The six layer tokens are pairwise non-prefixes of each other and differ
within their first two characters, so at any position at most one
alternative can match: the alternation never backtracks across tokens. -/

def layerTokenData : List (List Char) :=
  ["ODP", "FDP", "CDP", "RAW", "FOUNDATION", "CONSUMPTION"].map String.data

/-- Try the six-token alternation (case-insensitively) at the head of `s`;
returns the canonical uppercase token (= JS `match[1].toUpperCase()`) and
the rest of the input. -/
def firstTokenMatch (s : List Char) : Option (List Char × List Char) :=
  layerTokenData.findSome? (fun tok => (matchCI tok s).map (fun rest => (tok, rest)))

/-- Layer resolution applied to `match[1].toUpperCase()` in rules 1 and 2:
start from ODP, override with FDP / CDP by the two `if`s. -/
def tokenLayer (tokU : List Char) : ProductLayer :=
  let l0 := ProductLayer.ODP
  let l1 := if tokU == "FDP".data || tokU == "FOUNDATION".data then ProductLayer.FDP else l0
  if tokU == "CDP".data || tokU == "CONSUMPTION".data then ProductLayer.CDP else l1

/-- One attempt of pattern 1 at the current position (the leading `\b` is
checked by the caller).  The name group `[A-Za-z0-9_]+` is greedy and the
trailing `\b` is automatically satisfied at its maximal extent.  Returns
the token, the name, and the total number of characters consumed. -/
def dotMatchAt (s : List Char) : Option (List Char × List Char × Nat) :=
  match firstTokenMatch s with
  | none => none
  | some (tok, rest) =>
    match rest with
    | '.' :: rest2 =>
      let name := rest2.takeWhile isWordChar
      if name.isEmpty then none
      else some (tok, name, tok.length + 1 + name.length)
    | _ => none

/-- `matchAll` scan for pattern 1: left-to-right, a match may only start at
a word boundary (`prevWord = false`), and scanning resumes after the end of
each match (`skip` counts positions still inside the previous match). -/
def scanDotGo : List Char → Bool → Nat → List (List Char × List Char)
  | [], _, _ => []
  | c :: rest, prevWord, skip =>
    if skip > 0 then scanDotGo rest (isWordChar c) (skip - 1)
    else if prevWord then scanDotGo rest (isWordChar c) 0
    else
      match dotMatchAt (c :: rest) with
      | some (tok, name, len) => (tok, name) :: scanDotGo rest (isWordChar c) (len - 1)
      | none => scanDotGo rest (isWordChar c) 0

def scanDot (s : List Char) : List (List Char × List Char) := scanDotGo s false 0

/-- Backtracking of `[:\s_-]+(\w+)` after the token of pattern 2: the
separator class is greedy (maximal run `m`), shrinking while `(\w+)` cannot
start; `_` belongs to both classes, which is the only way shrinking helps. -/
def sepBacktrack (rest : List Char) : Nat → Option (List Char)
  | 0 => none
  | k + 1 =>
    let r := rest.drop (k + 1)
    let name := r.takeWhile isWordChar
    if name.isEmpty then sepBacktrack rest k else some name

/-- Pattern 2, anchored at the start of the line; returns the uppercase
token and the captured name. -/
def standardMatchFn (line : List Char) : Option (List Char × List Char) :=
  match firstTokenMatch line with
  | none => none
  | some (tok, rest) =>
    (sepBacktrack rest (rest.takeWhile isSepChar).length).map (fun name => (tok, name))

/-- The tail `\s*[-=]>\s*([A-Za-z0-9_]+)\.?([A-Za-z0-9_]*)` of pattern 3.
Both `\s*` are effectively possessive here: giving characters back can only
expose a space to `[-=]`, which fails; `p3` greedy likewise, and the final
`\.?`/`p4` have nothing after them to fail. -/
def arrowTail (s : List Char) : Option (List Char × List Char) :=
  match s.dropWhile isJsSpace with
  | c :: '>' :: rest =>
    if c == '-' || c == '=' then
      let s2 := rest.dropWhile isJsSpace
      let p3 := s2.takeWhile isWordChar
      if p3.isEmpty then none
      else
        match s2.drop p3.length with
        | '.' :: s4 => some (p3, s4.takeWhile isWordChar)
        | _ => some (p3, [])
    else none
  | _ => none

/-- Pattern 3 tried at one start position.  `p1` is the maximal word run
(shorter choices leave a word character in front of `\s*[-=]>`, which
fails, and never expose a `.`); after an explicit dot, `p2` is the maximal
word run for the same reason, and the `\.?`-skipped branch dies on the dot
itself.  So no backtracking survives beyond these maximal choices. -/
def arrowAt (s : List Char) : Option (List Char × List Char × List Char × List Char) :=
  let p1 := s.takeWhile isWordChar
  if p1.isEmpty then none
  else
    match s.drop p1.length with
    | '.' :: r2 =>
      let p2 := r2.takeWhile isWordChar
      (arrowTail (r2.drop p2.length)).map (fun pq => (p1, p2, pq.1, pq.2))
    | r => (arrowTail r).map (fun pq => (p1, [], pq.1, pq.2))

/-- Leftmost match of pattern 3 (JS `String.prototype.match`). -/
def arrowScan : List Char → Option (List Char × List Char × List Char × List Char)
  | [] => none
  | c :: rest =>
    match arrowAt (c :: rest) with
    | some r => some r
    | none => arrowScan rest

/-! ## Transcript-mode extraction engine (`parseMarkdownFormat`)

In the source, `activeTables` holds aliased references into
`explicitTables` and field pushes mutate the shared fragment objects.
The embedding represents `activeTables` as indices into
`explicitTables`, making the aliasing explicit. -/

structure MDState where
  rows : List EnhancedMappingRow
  explicitTables : List ParsedTableFragment
  activeTables : List Nat
deriving DecidableEq, Repr

/-- `explicitTables.find(t => t.name === name && t.layer === layer)`,
creating and appending the fragment when absent; returns the updated list
and the index of the fragment. -/
def findOrCreate (ets : List ParsedTableFragment) (name : String) (layer : ProductLayer) :
    List ParsedTableFragment × Nat :=
  match ets.findIdx? (fun t => decide (t.name = name ∧ t.layer = layer)) with
  | some i => (ets, i)
  | none => (ets ++ [⟨name, layer, []⟩], ets.length)

/-- Rule 1: dot-notation multi-header.  All matches are folded in order;
the matched fragments replace `activeTables`. -/
def applyDotRule (st : MDState) (dots : List (List Char × List Char)) : MDState :=
  let acc := dots.foldl
    (fun (acc : List ParsedTableFragment × List Nat) dm =>
      let fc := findOrCreate acc.1 (String.mk dm.2) (tokenLayer dm.1)
      (fc.1, acc.2 ++ [fc.2]))
    (st.explicitTables, [])
  { st with explicitTables := acc.1, activeTables := acc.2 }

/-- Rule 2: standard single header; replaces `activeTables` with a
singleton. -/
def applyStdRule (st : MDState) (tok name : List Char) : MDState :=
  let fc := findOrCreate st.explicitTables (String.mk name) (tokenLayer tok)
  { st with explicitTables := fc.1, activeTables := [fc.2] }

/-- `activeTables[i]?.name` with a default (JS optional chaining followed
by `|| 'Unknown_…'`). -/
def fragNameAt (st : MDState) (oi : Option Nat) (dflt : String) : String :=
  match oi with
  | some i =>
    match st.explicitTables.get? i with
    | some f => f.name
    | none => dflt
  | none => dflt

/-- Rule 3: arrow mapping.  `p2`/`p4` empty means the bare-field form, in
which case tables come from `activeTables[0]` / `activeTables[last]` or
the `Unknown_…` defaults. -/
def applyArrowRule (st : MDState) (p : List Char × List Char × List Char × List Char) : MDState :=
  let p1 := String.mk p.1
  let p2 := String.mk p.2.1
  let p3 := String.mk p.2.2.1
  let p4 := String.mk p.2.2.2
  let sourceTable := if p2.isEmpty then fragNameAt st st.activeTables.head? "Unknown_Source" else p1
  let sourceField := if p2.isEmpty then p1 else p2
  let targetTable := if p4.isEmpty then fragNameAt st st.activeTables.getLast? "Unknown_Target" else p3
  let targetField := if p4.isEmpty then p3 else p4
  { st with rows := st.rows ++
      [⟨sourceTable, sourceField, targetTable, targetField, "STRING", none,
        some (detectLayer sourceTable), some (detectLayer targetTable)⟩] }

def reservedWordData : List (List Char) :=
  ["ODP", "FDP", "CDP", "ID", "NULL"].map String.data

/-- `['ODP','FDP','CDP','ID','NULL'].includes(word.toUpperCase())`. -/
def isReserved (w : List Char) : Bool := reservedWordData.contains (upperChars w)

/-- `line.split(/[\s|]+/).filter(w => w.length > 1 && /^[A-Za-z0-9_]+$/.test(w))`. -/
def looseTokens (line : List Char) : List (List Char) :=
  (splitRuns isWsPipe line).filter (fun w => decide (1 < w.length) && w.all isWordChar)

/-- The guarded field push shared verbatim by both branches of rule 4:
skip reserved words and already-present fields, strip non-word characters
(the identity here, since candidates passed `/^[A-Za-z0-9_]+$/`), and push
only names longer than one character. -/
def pushFieldAt (ets : List ParsedTableFragment) (idx : Nat) (w : List Char) :
    List ParsedTableFragment :=
  match ets.get? idx with
  | none => ets
  | some frag =>
    if isReserved w || frag.fields.contains (String.mk w) then ets
    else
      let clean := w.filter isWordChar
      if 1 < clean.length then
        ets.set idx { frag with fields := frag.fields ++ [String.mk clean] }
      else ets

/-- Rule 4: loose field distribution.  With more than one active table and
at least as many candidate tokens, token `i` is offered to active table
`i`; otherwise every candidate goes to the last active table. -/
def applyLooseRule (st : MDState) (line : List Char) : MDState :=
  if st.activeTables.isEmpty then st
  else
    let pf := looseTokens line
    if 1 < st.activeTables.length ∧ st.activeTables.length ≤ pf.length then
      let ets := (st.activeTables.zip pf).foldl
        (fun ets p => pushFieldAt ets p.1 p.2) st.explicitTables
      { st with explicitTables := ets }
    else
      match st.activeTables.getLast? with
      | none => st
      | some lastIdx =>
        let ets := pf.foldl (fun ets w => pushFieldAt ets lastIdx w) st.explicitTables
        { st with explicitTables := ets }

/-- One line of the transcript parser: the four rules in priority order,
first match wins. -/
def stepLine (st : MDState) (line : List Char) : MDState :=
  let dots := scanDot line
  if dots.isEmpty then
    match standardMatchFn line with
    | some tn => applyStdRule st tn.1 tn.2
    | none =>
      match arrowScan line with
      | some p => applyArrowRule st p
      | none => applyLooseRule st line
  else applyDotRule st dots

/-- `content.split('\n').map(l => l.trim()).filter(l => l && l.length > 1)`. -/
def mdLines (content : String) : List (List Char) :=
  ((splitOnCh '\n' content.data).map jsTrim).filter (fun l => decide (1 < l.length))

/-- `private parseMarkdownFormat(content)`. -/
def parseMarkdownFormat (content : String) :
    List EnhancedMappingRow × List ParsedTableFragment :=
  let final := (mdLines content).foldl stepLine ⟨[], [], []⟩
  (final.rows, final.explicitTables)

/-! ## CSV-mode parser (`parseCSV`) -/

/-- Skip empty, `#`-comment, and `source_table…` header lines. -/
def csvSkip (line : List Char) : Bool :=
  line.isEmpty || line.head? == some '#' ||
    "source_table".data.isPrefixOf (line.map Char.toLower)

/-- One CSV data line: split on commas, trim the parts, require at least
four; `parts[4] || 'STRING'` and `parts[5] || undefined` treat the empty
string as absent. -/
def csvRow (line : List Char) : Option EnhancedMappingRow :=
  let parts := (splitOnCh ',' line).map (fun p => String.mk (jsTrim p))
  if parts.length < 4 then none
  else
    let srcT := parts.getD 0 ""
    let srcF := parts.getD 1 ""
    let tgtT := parts.getD 2 ""
    let tgtF := parts.getD 3 ""
    let dt := parts.getD 4 ""
    let tr := parts.getD 5 ""
    some ⟨srcT, srcF, tgtT, tgtF, if dt.isEmpty then "STRING" else dt,
          if tr.isEmpty then none else some tr,
          some (detectLayer srcT), some (detectLayer tgtT)⟩

/-- `private parseCSV(content)`. -/
def parseCSV (content : String) : List EnhancedMappingRow :=
  (splitOnCh '\n' (jsTrim content.data)).foldl
    (fun rows l =>
      let line := jsTrim l
      if csvSkip line then rows
      else
        match csvRow line with
        | some r => rows ++ [r]
        | none => rows)
    []

/-! ## Table graph builder (`generateTables`)

The JS `Map<string, TableMetadata>` is an insertion-ordered map with
unique keys: `set` on an existing key replaces the value in place,
otherwise appends. -/

abbrev TableMap := List (String × TableMetadata)

def lookupA : TableMap → String → Option TableMetadata
  | [], _ => none
  | p :: rest, k => if p.1 = k then some p.2 else lookupA rest k

def setA : TableMap → String → TableMetadata → TableMap
  | [], k, v => [(k, v)]
  | p :: rest, k, v => if p.1 = k then (k, v) :: rest else p :: setA rest k v

def valuesA (m : TableMap) : List TableMetadata := m.map (fun p => p.2)

/-- `${layer.toLowerCase().split(' ')[0]}` applied to the enum display
string: lower-case it, split on the single-space separator, take the
first fragment. -/
def layerIdPrefix (l : ProductLayer) : String :=
  String.mk ((splitOnCh ' ' (l.display.data.map Char.toLower)).headD [])

/-- The default-seeded table used by `ensureTableExists`. -/
def defaultTable (name : String) (layer : ProductLayer) : TableMetadata :=
  ⟨layerIdPrefix layer ++ "-" ++ name, layer, name,
   ["id", "created_at", "updated_at"], ["id"], []⟩

/-- Phase 1: a table from an explicit fragment — same shape, with the
fragment's fields appended after the seed columns. -/
def seedFragment (frag : ParsedTableFragment) : TableMetadata :=
  ⟨layerIdPrefix frag.layer ++ "-" ++ frag.name, frag.layer, frag.name,
   ["id", "created_at", "updated_at"] ++ frag.fields, ["id"], []⟩

def seedTables (frags : List ParsedTableFragment) : TableMap :=
  frags.foldl (fun m f => setA m f.name (seedFragment f)) []

/-- `private ensureTableExists(tables, tableName, layer)`. -/
def ensureTableExists (m : TableMap) (name : String) (layer : ProductLayer) : TableMap :=
  if (lookupA m name).isSome then m else setA m name (defaultTable name layer)

/-- `if (!t.columns.includes(col)) t.columns.push(col)` on the table at
`name` (a no-op when the table is absent, which `generateTables` never
lets happen). -/
def addColumn (m : TableMap) (name col : String) : TableMap :=
  match lookupA m name with
  | none => m
  | some t =>
    if t.columns.contains col then m
    else setA m name { t with columns := t.columns ++ [col] }

def mkMapping (row : EnhancedMappingRow) : FieldMapping :=
  ⟨row.sourceField, row.targetField, row.transformation.getD ""⟩

/-- Append a mapping to the first source entry named `n` (the object the
JS `find` returned and mutated). -/
def pushMappingAt : List SourceAsset → String → FieldMapping → List SourceAsset
  | [], _, _ => []
  | s :: rest, n, mp =>
    if s.name == n then { s with mappings := s.mappings ++ [mp] } :: rest
    else s :: pushMappingAt rest n mp

/-- The source-entry lookup-or-create plus the duplicate-target-field
check on the target table. -/
def tableAddMapping (t : TableMetadata) (row : EnhancedMappingRow) : TableMetadata :=
  match t.sources.find? (fun s => s.name == row.sourceTable) with
  | none => { t with sources := t.sources ++ [⟨row.sourceTable, [mkMapping row]⟩] }
  | some s =>
    if s.mappings.any (fun mp => mp.targetField == row.targetField) then t
    else { t with sources := pushMappingAt t.sources row.sourceTable (mkMapping row) }

def addMapping (m : TableMap) (row : EnhancedMappingRow) : TableMap :=
  match lookupA m row.targetTable with
  | none => m
  | some t => setA m row.targetTable (tableAddMapping t row)

/-- Phase 2, one row: ensure/extend target, ensure/extend source, then
attach the field mapping to the target's source entry. -/
def processRow (m : TableMap) (row : EnhancedMappingRow) : TableMap :=
  let m1 := ensureTableExists m row.targetTable (row.targetLayer.getD .ODP)
  let m2 := addColumn m1 row.targetTable row.targetField
  let m3 := ensureTableExists m2 row.sourceTable (row.sourceLayer.getD .ODP)
  let m4 := addColumn m3 row.sourceTable row.sourceField
  addMapping m4 row

/-- `private generateTables(rows, explicitTables)`. -/
def generateTables (rows : List EnhancedMappingRow)
    (frags : List ParsedTableFragment) : TableMap :=
  rows.foldl processRow (seedTables frags)

/-! ## Top-level `analyze` -/

structure MappingSummary where
  odpTables : Nat
  fdpTables : Nat
  cdpTables : Nat
  totalFields : Nat
deriving DecidableEq, Repr

structure EnhancedMappingResult where
  tables : List TableMetadata
  lineage : List (String × List String)
  summary : MappingSummary
deriving DecidableEq, Repr

/-- The format-detection test of `analyze`. -/
def hasTranscriptMarker (content : String) : Bool :=
  subOf "ODP:".data content.data || subOf "FDP:".data content.data ||
    subOf "CDP:".data content.data || subOf "->".data content.data

/-- The extraction phase of `analyze`: transcript parse or CSV parse
(the CSV branch produces no explicit tables). -/
def extractAll (content : String) :
    List EnhancedMappingRow × List ParsedTableFragment :=
  if hasTranscriptMarker content then parseMarkdownFormat content
  else (parseCSV content, [])

/-- `public analyze(content: string)`; `throw new Error(...)` is modelled
by `Except.error`. -/
def analyze (content : String) : Except String EnhancedMappingResult :=
  let rf := extractAll content
  if rf.1.isEmpty && rf.2.isEmpty then
    .error "No valid mapping data found. Please check the input format."
  else
    let tableArray := valuesA (generateTables rf.1 rf.2)
    .ok ⟨tableArray,
         tableArray.map (fun t => (t.targetName, t.sources.map (fun s => s.name))),
         ⟨(tableArray.filter (fun t => decide (t.layer = .ODP))).length,
          (tableArray.filter (fun t => decide (t.layer = .FDP))).length,
          (tableArray.filter (fun t => decide (t.layer = .CDP))).length,
          rf.1.length⟩⟩

/-! ## Association-list toolkit -/

theorem lookupA_setA_self (m : TableMap) (k : String) (v : TableMetadata) :
    lookupA (setA m k v) k = some v := by
  induction m with
  | nil => simp [setA, lookupA]
  | cons p rest ih =>
    by_cases h : p.1 = k
    · simp [setA, h, lookupA]
    · simpa [setA, h, lookupA] using ih

theorem lookupA_setA_ne (m : TableMap) (k k' : String) (v : TableMetadata)
    (h : k' ≠ k) : lookupA (setA m k v) k' = lookupA m k' := by
  induction m with
  | nil => simp [setA, lookupA, Ne.symm h]
  | cons p rest ih =>
    by_cases hp : p.1 = k
    · subst hp
      simp [setA, lookupA, Ne.symm h]
    · by_cases hp' : p.1 = k'
      · simp [setA, hp, lookupA, hp', h]
      · simpa [setA, hp, lookupA, hp'] using ih

theorem mem_setA {m : TableMap} {k : String} {v : TableMetadata} {p : String × TableMetadata}
    (h : p ∈ setA m k v) : p ∈ m ∨ p = (k, v) := by
  induction m with
  | nil => simpa [setA] using h
  | cons q rest ih =>
    by_cases hq : q.1 = k
    · simp [setA, hq] at h
      rcases h with h | h
      · right; simp [h]
      · left; simp [h]
    · simp [setA, hq] at h
      rcases h with h | h
      · left; simp [h]
      · rcases ih h with h' | h'
        · left; simp [h']
        · right; exact h'

theorem lookupA_mem {m : TableMap} {k : String} {t : TableMetadata}
    (h : lookupA m k = some t) : (k, t) ∈ m := by
  induction m with
  | nil => simp [lookupA] at h
  | cons p rest ih =>
    by_cases hp : p.1 = k
    · simp [lookupA, hp] at h
      subst hp
      subst h
      simp
    · simp [lookupA, hp] at h
      right
      exact ih h

theorem mem_valuesA {m : TableMap} {k : String} {t : TableMetadata}
    (h : (k, t) ∈ m) : t ∈ valuesA m := by
  simp only [valuesA, List.mem_map]
  exact ⟨(k, t), h, rfl⟩

theorem valuesA_mem {m : TableMap} {t : TableMetadata}
    (h : t ∈ valuesA m) : ∃ k, (k, t) ∈ m := by
  simp only [valuesA, List.mem_map] at h
  rcases h with ⟨p, hp, he⟩
  exact ⟨p.1, by rwa [show (p.1, t) = p by rw [← he]]⟩

/-- Generic invariant preservation through a left fold. -/
theorem foldl_inv {α β : Type} (f : α → β → α) (P : α → Prop) :
    ∀ (l : List β) (a : α), P a → (∀ x b, b ∈ l → P x → P (f x b)) → P (l.foldl f a)
  | [], a, ha, _ => ha
  | b :: l, a, ha, hstep => by
    refine foldl_inv f P l (f a b) (hstep a b (by simp) ha) ?_
    intro x b' hb' hx
    exact hstep x b' (by simp [hb']) hx

/-! ## Case analyses of the builder operations -/

theorem ensure_cases (m : TableMap) (name : String) (layer : ProductLayer) :
    ensureTableExists m name layer = m ∨
      (lookupA m name = none ∧
        ensureTableExists m name layer = setA m name (defaultTable name layer)) := by
  unfold ensureTableExists
  cases h : lookupA m name with
  | some t => simp [h]
  | none => simp [h]

theorem addColumn_cases (m : TableMap) (name col : String) :
    addColumn m name col = m ∨
      ∃ t, lookupA m name = some t ∧ col ∉ t.columns ∧
        addColumn m name col = setA m name { t with columns := t.columns ++ [col] } := by
  unfold addColumn
  cases h : lookupA m name with
  | none => simp
  | some t =>
    dsimp only
    by_cases hc : col ∈ t.columns
    · left
      rw [if_pos (by simpa using hc)]
    · right
      exact ⟨t, rfl, hc, by rw [if_neg (by simpa using hc)]⟩

theorem addMapping_cases (m : TableMap) (row : EnhancedMappingRow) :
    addMapping m row = m ∨
      ∃ t, lookupA m row.targetTable = some t ∧
        addMapping m row = setA m row.targetTable (tableAddMapping t row) := by
  unfold addMapping
  cases h : lookupA m row.targetTable with
  | none => simp
  | some t => exact Or.inr ⟨t, rfl, rfl⟩

theorem tableAddMapping_layer (t : TableMetadata) (row : EnhancedMappingRow) :
    (tableAddMapping t row).layer = t.layer := by
  unfold tableAddMapping
  cases t.sources.find? (fun s => s.name == row.sourceTable) <;> simp
  split <;> rfl

theorem tableAddMapping_id (t : TableMetadata) (row : EnhancedMappingRow) :
    (tableAddMapping t row).id = t.id := by
  unfold tableAddMapping
  cases t.sources.find? (fun s => s.name == row.sourceTable) <;> simp
  split <;> rfl

theorem tableAddMapping_targetName (t : TableMetadata) (row : EnhancedMappingRow) :
    (tableAddMapping t row).targetName = t.targetName := by
  unfold tableAddMapping
  cases t.sources.find? (fun s => s.name == row.sourceTable) <;> simp
  split <;> rfl

theorem tableAddMapping_columns (t : TableMetadata) (row : EnhancedMappingRow) :
    (tableAddMapping t row).columns = t.columns := by
  unfold tableAddMapping
  cases t.sources.find? (fun s => s.name == row.sourceTable) <;> simp
  split <;> rfl

/-! ## Frame preservation of existing tables (claim C9 machinery)

`Preserved m m'` says every table already present in `m` is still present
in `m'` with the same layer, id and target name, and with its column list
only extended at the end. -/

def Preserved (m m' : TableMap) : Prop :=
  ∀ n t, lookupA m n = some t →
    ∃ t', lookupA m' n = some t' ∧ t'.layer = t.layer ∧ t'.id = t.id ∧
      t'.targetName = t.targetName ∧ ∃ ext, t'.columns = t.columns ++ ext

theorem Preserved.refl (m : TableMap) : Preserved m m := by
  intro n t h
  exact ⟨t, h, rfl, rfl, rfl, [], by simp⟩

theorem Preserved.trans {m₁ m₂ m₃ : TableMap}
    (h₁ : Preserved m₁ m₂) (h₂ : Preserved m₂ m₃) : Preserved m₁ m₃ := by
  intro n t h
  obtain ⟨t', h', hl, hi, hn, ext, hc⟩ := h₁ n t h
  obtain ⟨t'', h'', hl', hi', hn', ext', hc'⟩ := h₂ n t' h'
  exact ⟨t'', h'', by rw [hl', hl], by rw [hi', hi], by rw [hn', hn],
    ext ++ ext', by rw [hc', hc, List.append_assoc]⟩

theorem preserved_ensure (m : TableMap) (name : String) (layer : ProductLayer) :
    Preserved m (ensureTableExists m name layer) := by
  rcases ensure_cases m name layer with h | ⟨hnone, h⟩
  · rw [h]; exact Preserved.refl m
  · intro n t hl
    have hne : n ≠ name := by
      intro e; rw [e, hnone] at hl; exact Option.noConfusion hl
    rw [h, lookupA_setA_ne m name n _ hne]
    exact ⟨t, hl, rfl, rfl, rfl, [], by simp⟩

theorem preserved_addColumn (m : TableMap) (name col : String) :
    Preserved m (addColumn m name col) := by
  rcases addColumn_cases m name col with h | ⟨t0, hl0, hc0, h⟩
  · rw [h]; exact Preserved.refl m
  · intro n t hl
    by_cases hne : n = name
    · subst hne
      rw [hl] at hl0
      injection hl0 with he
      subst he
      rw [h, lookupA_setA_self]
      exact ⟨_, rfl, rfl, rfl, rfl, [col], rfl⟩
    · rw [h, lookupA_setA_ne m name n _ hne]
      exact ⟨t, hl, rfl, rfl, rfl, [], by simp⟩

theorem preserved_addMapping (m : TableMap) (row : EnhancedMappingRow) :
    Preserved m (addMapping m row) := by
  rcases addMapping_cases m row with h | ⟨t0, hl0, h⟩
  · rw [h]; exact Preserved.refl m
  · intro n t hl
    by_cases hne : n = row.targetTable
    · subst hne
      rw [hl] at hl0
      injection hl0 with he
      subst he
      rw [h, lookupA_setA_self]
      exact ⟨_, rfl, tableAddMapping_layer _ _, tableAddMapping_id _ _,
        tableAddMapping_targetName _ _, [], by simp [tableAddMapping_columns]⟩
    · rw [h, lookupA_setA_ne m row.targetTable n _ hne]
      exact ⟨t, hl, rfl, rfl, rfl, [], by simp⟩

theorem preserved_processRow (m : TableMap) (row : EnhancedMappingRow) :
    Preserved m (processRow m row) := by
  exact ((((preserved_ensure m row.targetTable (row.targetLayer.getD .ODP)).trans
    (preserved_addColumn _ row.targetTable row.targetField)).trans
    (preserved_ensure _ row.sourceTable (row.sourceLayer.getD .ODP))).trans
    (preserved_addColumn _ row.sourceTable row.sourceField)).trans
    (preserved_addMapping _ row)

theorem preserved_foldl (rows : List EnhancedMappingRow) (m : TableMap) :
    Preserved m (rows.foldl processRow m) := by
  induction rows generalizing m with
  | nil => exact Preserved.refl m
  | cons r rest ih =>
    exact (preserved_processRow m r).trans (by simpa using ih (processRow m r))

/-! ## Entry-wise invariants of the table map -/

def EntryInv (Q : String → TableMetadata → Prop) (m : TableMap) : Prop :=
  ∀ p ∈ m, Q p.1 p.2

theorem entryInv_setA {Q : String → TableMetadata → Prop} {m : TableMap}
    {k : String} {v : TableMetadata}
    (h : EntryInv Q m) (hv : Q k v) : EntryInv Q (setA m k v) := by
  intro p hp
  rcases mem_setA hp with h' | h'
  · exact h p h'
  · rw [h']; exact hv

theorem entryInv_lookupA {Q : String → TableMetadata → Prop} {m : TableMap}
    {k : String} {t : TableMetadata}
    (h : EntryInv Q m) (hl : lookupA m k = some t) : Q k t :=
  h (k, t) (lookupA_mem hl)

theorem entryInv_ensure {Q : String → TableMetadata → Prop} {m : TableMap}
    (h : EntryInv Q m) (name : String) (layer : ProductLayer)
    (hd : Q name (defaultTable name layer)) :
    EntryInv Q (ensureTableExists m name layer) := by
  rcases ensure_cases m name layer with he | ⟨_, he⟩
  · rwa [he]
  · rw [he]; exact entryInv_setA h hd

theorem entryInv_addColumn {Q : String → TableMetadata → Prop} {m : TableMap}
    (h : EntryInv Q m) (name col : String)
    (hstep : ∀ t, Q name t → col ∉ t.columns →
      Q name { t with columns := t.columns ++ [col] }) :
    EntryInv Q (addColumn m name col) := by
  rcases addColumn_cases m name col with he | ⟨t, hl, hc, he⟩
  · rwa [he]
  · rw [he]; exact entryInv_setA h (hstep t (entryInv_lookupA h hl) hc)

theorem entryInv_addMapping {Q : String → TableMetadata → Prop} {m : TableMap}
    {row : EnhancedMappingRow} (h : EntryInv Q m)
    (hstep : ∀ t, Q row.targetTable t → Q row.targetTable (tableAddMapping t row)) :
    EntryInv Q (addMapping m row) := by
  rcases addMapping_cases m row with he | ⟨t, hl, he⟩
  · rwa [he]
  · rw [he]; exact entryInv_setA h (hstep t (entryInv_lookupA h hl))

theorem entryInv_seedTables (Q : String → TableMetadata → Prop)
    (frags : List ParsedTableFragment)
    (h : ∀ f ∈ frags, Q f.name (seedFragment f)) :
    EntryInv Q (seedTables frags) := by
  unfold seedTables
  refine foldl_inv _ (EntryInv Q) frags [] (by intro p hp; simp at hp) ?_
  intro m f hf hm
  exact entryInv_setA hm (h f hf)

/-- The workhorse: an entry-wise invariant holds of the built table map
provided it holds of all seeds and defaults and is preserved by guarded
column pushes and by `tableAddMapping`. -/
theorem entryInv_generateTables (Q : String → TableMetadata → Prop)
    (rows : List EnhancedMappingRow) (frags : List ParsedTableFragment)
    (hseed : ∀ f ∈ frags, Q f.name (seedFragment f))
    (hdefT : ∀ row ∈ rows, Q row.targetTable
      (defaultTable row.targetTable (row.targetLayer.getD .ODP)))
    (hdefS : ∀ row ∈ rows, Q row.sourceTable
      (defaultTable row.sourceTable (row.sourceLayer.getD .ODP)))
    (hcol : ∀ k t col, Q k t → col ∉ t.columns →
      Q k { t with columns := t.columns ++ [col] })
    (hmap : ∀ row ∈ rows, ∀ t, Q row.targetTable t →
      Q row.targetTable (tableAddMapping t row)) :
    EntryInv Q (generateTables rows frags) := by
  unfold generateTables
  refine foldl_inv processRow (EntryInv Q) rows (seedTables frags)
    (entryInv_seedTables Q frags hseed) ?_
  intro m row hrow hm
  show EntryInv Q (processRow m row)
  unfold processRow
  refine entryInv_addMapping ?_ (hmap row hrow)
  refine entryInv_addColumn ?_ _ _ (fun t => hcol _ t _)
  refine entryInv_ensure ?_ _ _ (hdefS row hrow)
  refine entryInv_addColumn ?_ _ _ (fun t => hcol _ t _)
  exact entryInv_ensure hm _ _ (hdefT row hrow)

/-! ## Presence of row tables in the built map -/

theorem Preserved.isSome {m m' : TableMap} (h : Preserved m m') (n : String)
    (hs : (lookupA m n).isSome) : (lookupA m' n).isSome := by
  rw [Option.isSome_iff_exists] at hs ⊢
  obtain ⟨t, ht⟩ := hs
  obtain ⟨t', ht', _⟩ := h n t ht
  exact ⟨t', ht'⟩

theorem ensure_present (m : TableMap) (name : String) (layer : ProductLayer) :
    (lookupA (ensureTableExists m name layer) name).isSome := by
  unfold ensureTableExists
  by_cases hs : (lookupA m name).isSome
  · rw [if_pos hs]; exact hs
  · rw [if_neg hs, lookupA_setA_self]; rfl

theorem processRow_present (m : TableMap) (row : EnhancedMappingRow) :
    (lookupA (processRow m row) row.targetTable).isSome ∧
      (lookupA (processRow m row) row.sourceTable).isSome := by
  have e : processRow m row =
      addMapping (addColumn (ensureTableExists (addColumn
        (ensureTableExists m row.targetTable (row.targetLayer.getD .ODP))
        row.targetTable row.targetField) row.sourceTable (row.sourceLayer.getD .ODP))
        row.sourceTable row.sourceField) row := rfl
  rw [e]
  constructor
  · apply Preserved.isSome (preserved_addMapping _ row)
    apply Preserved.isSome (preserved_addColumn _ row.sourceTable row.sourceField)
    apply Preserved.isSome (preserved_ensure _ row.sourceTable (row.sourceLayer.getD .ODP))
    apply Preserved.isSome (preserved_addColumn _ row.targetTable row.targetField)
    exact ensure_present m row.targetTable (row.targetLayer.getD .ODP)
  · apply Preserved.isSome (preserved_addMapping _ row)
    apply Preserved.isSome (preserved_addColumn _ row.sourceTable row.sourceField)
    exact ensure_present _ row.sourceTable (row.sourceLayer.getD .ODP)

theorem foldl_processRow_present :
    ∀ (rows : List EnhancedMappingRow) (m : TableMap) (row : EnhancedMappingRow),
      row ∈ rows →
      (lookupA (rows.foldl processRow m) row.targetTable).isSome ∧
        (lookupA (rows.foldl processRow m) row.sourceTable).isSome
  | [], _, _, h => absurd h (by simp)
  | r :: rest, m, row, h => by
    rcases List.mem_cons.mp h with he | hm
    · subst he
      have hp := processRow_present m row
      have hpre := preserved_foldl rest (processRow m row)
      exact ⟨hpre.isSome _ hp.1, hpre.isSome _ hp.2⟩
    · simpa using foldl_processRow_present rest (processRow m r) row hm

theorem generateTables_present (frags : List ParsedTableFragment)
    {rows : List EnhancedMappingRow} {row : EnhancedMappingRow} (h : row ∈ rows) :
    (lookupA (generateTables rows frags) row.targetTable).isSome ∧
      (lookupA (generateTables rows frags) row.sourceTable).isSome :=
  foldl_processRow_present rows (seedTables frags) row h

/-! ## Invariants of the transcript parser state

Every fragment ever created has duplicate-free fields not containing the
string "id" (any-cased `id` is a reserved word, so it is never pushed;
each push is guarded by a membership test). -/

def FragsOK (ets : List ParsedTableFragment) : Prop :=
  ∀ f ∈ ets, f.fields.Nodup ∧ "id" ∉ f.fields

theorem fragsOK_findOrCreate {ets : List ParsedTableFragment} (h : FragsOK ets)
    (name : String) (layer : ProductLayer) :
    FragsOK (findOrCreate ets name layer).1 := by
  unfold findOrCreate
  split
  · exact h
  · intro f hf
    rcases List.mem_append.mp hf with hm | hm
    · exact h f hm
    · simp only [List.mem_singleton] at hm
      rw [hm]
      exact ⟨List.nodup_nil, by simp⟩

theorem fragsOK_pushFieldAt {ets : List ParsedTableFragment} (h : FragsOK ets)
    (idx : Nat) {w : List Char} (hw : w.all isWordChar = true) :
    FragsOK (pushFieldAt ets idx w) := by
  unfold pushFieldAt
  cases hget : ets.get? idx with
  | none => exact h
  | some frag =>
    dsimp only
    by_cases hres : (isReserved w || (frag.fields.contains (String.mk w))) = true
    · rw [if_pos hres]; exact h
    · rw [if_neg hres]
      have hclean : w.filter isWordChar = w :=
        List.filter_eq_self.mpr (by simpa [List.all_eq_true] using hw)
      rw [hclean]
      by_cases hlen : 1 < w.length
      · rw [if_pos hlen]
        have hfr := h frag (List.get?_mem hget)
        have hnotin : String.mk w ∉ frag.fields := by
          intro hmem
          exact hres (by simp [hmem])
        have hnotid : String.mk w ≠ "id" := by
          intro he
          have hwid : w = "id".data := congrArg String.data he
          subst hwid
          exact hres (by simp [show isReserved "id".data = true from by decide])
        intro f hf
        rcases List.mem_or_eq_of_mem_set hf with hm | hm
        · exact h f hm
        · rw [hm]
          refine ⟨?_, ?_⟩
          · simp [List.nodup_append, hfr.1, hnotin]
          · intro hid
            rcases List.mem_append.mp hid with hm' | hm'
            · exact hfr.2 hm'
            · simp only [List.mem_singleton] at hm'
              exact hnotid hm'.symm
      · rw [if_neg hlen]; exact h

theorem looseTokens_all_word {line : List Char} {w : List Char}
    (h : w ∈ looseTokens line) : w.all isWordChar = true := by
  unfold looseTokens at h
  have hh := (List.mem_filter.mp h).2
  simp only [Bool.and_eq_true] at hh
  exact hh.2

theorem fragsOK_applyDotRule {st : MDState} (h : FragsOK st.explicitTables)
    (dots : List (List Char × List Char)) :
    FragsOK (applyDotRule st dots).explicitTables := by
  unfold applyDotRule
  dsimp only
  refine foldl_inv _ (fun acc : List ParsedTableFragment × List Nat => FragsOK acc.1)
    dots (st.explicitTables, []) h ?_
  intro acc dm _ hacc
  exact fragsOK_findOrCreate hacc _ _

theorem fragsOK_applyStdRule {st : MDState} (h : FragsOK st.explicitTables)
    (tok name : List Char) :
    FragsOK (applyStdRule st tok name).explicitTables := by
  unfold applyStdRule
  exact fragsOK_findOrCreate h _ _

theorem applyArrowRule_explicitTables (st : MDState)
    (p : List Char × List Char × List Char × List Char) :
    (applyArrowRule st p).explicitTables = st.explicitTables := rfl

theorem fragsOK_applyLooseRule {st : MDState} (h : FragsOK st.explicitTables)
    (line : List Char) :
    FragsOK (applyLooseRule st line).explicitTables := by
  unfold applyLooseRule
  by_cases he : st.activeTables.isEmpty
  · rw [if_pos he]; exact h
  · rw [if_neg he]
    dsimp only
    split
    · refine foldl_inv _ FragsOK _ st.explicitTables h ?_
      intro ets p hp hets
      exact fragsOK_pushFieldAt hets p.1 (looseTokens_all_word (List.of_mem_zip hp).2)
    · split
      · exact h
      · refine foldl_inv _ FragsOK _ st.explicitTables h ?_
        intro ets w hw hets
        exact fragsOK_pushFieldAt hets _ (looseTokens_all_word hw)

theorem fragsOK_stepLine {st : MDState} (h : FragsOK st.explicitTables)
    (line : List Char) :
    FragsOK (stepLine st line).explicitTables := by
  unfold stepLine
  dsimp only
  by_cases hd : (scanDot line).isEmpty
  · rw [if_pos hd]
    cases standardMatchFn line with
    | some tn => exact fragsOK_applyStdRule h tn.1 tn.2
    | none =>
      cases arrowScan line with
      | some p => rw [applyArrowRule_explicitTables]; exact h
      | none => exact fragsOK_applyLooseRule h line
  · rw [if_neg hd]
    exact fragsOK_applyDotRule h _

theorem fragsOK_parse (content : String) : FragsOK (parseMarkdownFormat content).2 := by
  unfold parseMarkdownFormat
  dsimp only
  refine foldl_inv stepLine (fun st => FragsOK st.explicitTables) _ ⟨[], [], []⟩ ?_ ?_
  · intro f hf; simp at hf
  · intro st line _ hst; exact fragsOK_stepLine hst line

/-- Every extracted row carries `detectLayer` of its own table names as
its inferred layers (true in both parse modes). -/
def RowsOK (rows : List EnhancedMappingRow) : Prop :=
  ∀ r ∈ rows, r.sourceLayer = some (detectLayer r.sourceTable) ∧
    r.targetLayer = some (detectLayer r.targetTable)

theorem rowsOK_stepLine {st : MDState} (h : RowsOK st.rows) (line : List Char) :
    RowsOK (stepLine st line).rows := by
  unfold stepLine
  dsimp only
  by_cases hd : (scanDot line).isEmpty
  · rw [if_pos hd]
    cases standardMatchFn line with
    | some tn => exact h
    | none =>
      cases arrowScan line with
      | some p =>
        intro r hr
        unfold applyArrowRule at hr
        dsimp only at hr
        rcases List.mem_append.mp hr with hm | hm
        · exact h r hm
        · simp only [List.mem_singleton] at hm
          rw [hm]
          exact ⟨rfl, rfl⟩
      | none =>
        unfold applyLooseRule
        by_cases he : st.activeTables.isEmpty
        · rw [if_pos he]; exact h
        · rw [if_neg he]
          dsimp only
          split
          · exact h
          · split
            · exact h
            · exact h
  · rw [if_neg hd]
    exact h

theorem rowsOK_md (content : String) : RowsOK (parseMarkdownFormat content).1 := by
  unfold parseMarkdownFormat
  dsimp only
  refine foldl_inv stepLine (fun st => RowsOK st.rows) _ ⟨[], [], []⟩ ?_ ?_
  · intro r hr; simp at hr
  · intro st line _ hst; exact rowsOK_stepLine hst line

theorem csvRow_layers {line : List Char} {r : EnhancedMappingRow}
    (h : csvRow line = some r) :
    r.sourceLayer = some (detectLayer r.sourceTable) ∧
      r.targetLayer = some (detectLayer r.targetTable) := by
  unfold csvRow at h
  dsimp only at h
  split at h
  · exact Option.noConfusion h
  · injection h with he
    rw [← he]
    exact ⟨rfl, rfl⟩

theorem rowsOK_csv (content : String) : RowsOK (parseCSV content) := by
  unfold parseCSV
  refine foldl_inv _ RowsOK _ [] ?_ ?_
  · intro r hr; simp at hr
  · intro rows l _ hrows
    dsimp only
    by_cases hs : csvSkip (jsTrim l) = true
    · rw [if_pos hs]; exact hrows
    · rw [if_neg hs]
      cases hr : csvRow (jsTrim l) with
      | none => exact hrows
      | some r =>
        intro r' hr'
        rcases List.mem_append.mp hr' with hm | hm
        · exact hrows r' hm
        · simp only [List.mem_singleton] at hm
          rw [hm]
          exact csvRow_layers hr

theorem rowsOK_extract (content : String) : RowsOK (extractAll content).1 := by
  unfold extractAll
  split
  · exact rowsOK_md content
  · exact rowsOK_csv content

/-! ## Source-reference structure of a table (claim C7 machinery) -/

/-- Within one table: source names are pairwise distinct and no source
entry carries two mappings with the same target field. -/
def TblSourcesOK (t : TableMetadata) : Prop :=
  (t.sources.map SourceAsset.name).Nodup ∧
    ∀ s ∈ t.sources, (s.mappings.map FieldMapping.targetField).Nodup

/-- `pushMappingAt` updates exactly the first entry named `n` — the entry
the JS `find` returned. -/
theorem pushMappingAt_spec :
    ∀ {l : List SourceAsset} {n : String} {s0 : SourceAsset},
      l.find? (fun s => s.name == n) = some s0 → ∀ mp,
      ∃ l1 l2, l = l1 ++ s0 :: l2 ∧ (∀ s ∈ l1, s.name ≠ n) ∧
        pushMappingAt l n mp =
          l1 ++ { s0 with mappings := s0.mappings ++ [mp] } :: l2
  | [], n, s0, h, mp => by simp [List.find?] at h
  | a :: rest, n, s0, h, mp => by
    by_cases ha : a.name = n
    · have he : s0 = a := by
        rw [List.find?_cons_of_pos _ (by simpa using ha)] at h
        exact (Option.some.injEq .. ▸ h.symm)
      subst he
      exact ⟨[], rest, by simp, by simp, by simp [pushMappingAt, ha]⟩
    · rw [List.find?_cons_of_neg _ (by simpa using ha)] at h
      obtain ⟨l1, l2, hdec, hl1, hpush⟩ := pushMappingAt_spec h mp
      refine ⟨a :: l1, l2, by simp [hdec], ?_, by simp [pushMappingAt, ha, hpush]⟩
      intro s hs
      rcases List.mem_cons.mp hs with hm | hm
      · rw [hm]; exact ha
      · exact hl1 s hm

/-- With pairwise-distinct names, `find` returns the member itself. -/
theorem find?_name_of_nodup :
    ∀ {l : List SourceAsset} {s : SourceAsset}, s ∈ l →
      (l.map SourceAsset.name).Nodup →
      l.find? (fun x => x.name == s.name) = some s
  | [], s, h, _ => absurd h (by simp)
  | a :: rest, s, h, hnd => by
    rcases List.mem_cons.mp h with he | hm
    · subst he
      exact List.find?_cons_of_pos _ (by simp)
    · have hne : a.name ≠ s.name := by
        intro he
        have : s.name ∈ rest.map SourceAsset.name :=
          List.mem_map.mpr ⟨s, hm, rfl⟩
        rw [← he] at this
        exact (List.nodup_cons.mp (by simpa using hnd)).1 this
      rw [List.find?_cons_of_neg _ (by simpa using hne)]
      exact find?_name_of_nodup hm (List.nodup_cons.mp (by simpa using hnd)).2

/-- First-wins at the table level: when the (unique) source entry named
`row.sourceTable` already has a mapping onto `row.targetField`, the table
is returned unchanged. -/
theorem tableAddMapping_frozen {t : TableMetadata} {row : EnhancedMappingRow}
    {s : SourceAsset} (hs : s ∈ t.sources) (hname : s.name = row.sourceTable)
    (hnd : (t.sources.map SourceAsset.name).Nodup)
    (hdup : ∃ mp ∈ s.mappings, mp.targetField = row.targetField) :
    tableAddMapping t row = t := by
  unfold tableAddMapping
  rw [← hname, find?_name_of_nodup hs hnd]
  dsimp only
  rw [if_pos]
  obtain ⟨mp, hmp, he⟩ := hdup
  exact List.any_eq_true.mpr ⟨mp, hmp, by simpa using he⟩

theorem tblSourcesOK_default (name : String) (layer : ProductLayer) :
    TblSourcesOK (defaultTable name layer) := by
  exact ⟨by simp [defaultTable], by simp [defaultTable]⟩

theorem tblSourcesOK_seedFragment (f : ParsedTableFragment) :
    TblSourcesOK (seedFragment f) := by
  exact ⟨by simp [seedFragment], by simp [seedFragment]⟩

theorem tblSourcesOK_columns (t : TableMetadata) (cols : List String)
    (h : TblSourcesOK t) : TblSourcesOK { t with columns := cols } := h

theorem tblSourcesOK_addMapping {t : TableMetadata} (row : EnhancedMappingRow)
    (h : TblSourcesOK t) : TblSourcesOK (tableAddMapping t row) := by
  unfold tableAddMapping
  cases hf : t.sources.find? (fun s => s.name == row.sourceTable) with
  | none =>
    dsimp only
    have hnew : row.sourceTable ∉ t.sources.map SourceAsset.name := by
      intro hmem
      obtain ⟨s, hs, he⟩ := List.mem_map.mp hmem
      have := List.find?_eq_none.mp hf s hs
      simp [he] at this
    constructor
    · rw [List.map_append]
      simp only [List.map_cons, List.map_nil]
      rw [List.nodup_append]
      exact ⟨h.1, List.nodup_singleton _, by simpa using hnew⟩
    · intro s hs
      rcases List.mem_append.mp hs with hm | hm
      · exact h.2 s hm
      · simp only [List.mem_singleton] at hm
        rw [hm]
        simp
  | some s0 =>
    dsimp only
    by_cases hdup : s0.mappings.any (fun mp => mp.targetField == row.targetField) = true
    · rw [if_pos hdup]; exact h
    · rw [if_neg hdup]
      obtain ⟨l1, l2, hdec, _, hpush⟩ := pushMappingAt_spec hf (mkMapping row)
      rw [hpush]
      have hmem0 : s0 ∈ t.sources := by rw [hdec]; simp
      constructor
      · have : (l1 ++ { s0 with mappings := s0.mappings ++ [mkMapping row] } :: l2).map
            SourceAsset.name = (l1 ++ s0 :: l2).map SourceAsset.name := by
          simp
        rw [this, ← hdec]
        exact h.1
      · intro s hs
        rcases List.mem_append.mp hs with hm | hm
        · exact h.2 s (by rw [hdec]; exact List.mem_append.mpr (Or.inl hm))
        · rcases List.mem_cons.mp hm with he | hm'
          · rw [he]
            dsimp only
            rw [List.map_append]
            rw [List.nodup_append]
            refine ⟨h.2 s0 hmem0, by simp, ?_⟩
            intro x hx
            simp only [List.map_cons, List.map_nil, List.mem_singleton] at hx ⊢
            intro hx'
            rw [hx'] at hx
            apply hdup
            obtain ⟨mp, hmp, he'⟩ := List.mem_map.mp hx
            exact List.any_eq_true.mpr ⟨mp, hmp, by simp [he', mkMapping]⟩
          · exact h.2 s (by rw [hdec]; exact List.mem_append.mpr (Or.inr (List.mem_cons.mpr (Or.inr hm'))))

/-! ## Further builder helpers -/

theorem analyze_ok_tables {content : String} {res : EnhancedMappingResult}
    (h : analyze content = .ok res) :
    res.tables = valuesA (generateTables (extractAll content).1 (extractAll content).2) := by
  unfold analyze at h
  dsimp only at h
  split at h
  · exact Except.noConfusion h
  · injection h with he
    rw [← he]

theorem ensure_lookup_of_some (name : String) (layer : ProductLayer)
    {m : TableMap} {n : String} {t : TableMetadata} (h : lookupA m n = some t) :
    lookupA (ensureTableExists m name layer) n = some t := by
  rcases ensure_cases m name layer with he | ⟨hnone, he⟩
  · rw [he]; exact h
  · have hn : n ≠ name := fun e => by rw [e, hnone] at h; exact Option.noConfusion h
    rw [he, lookupA_setA_ne _ _ _ _ hn]; exact h

theorem addColumn_sources (name col : String) {m : TableMap} {n : String}
    {t : TableMetadata} (h : lookupA m n = some t) :
    ∃ t', lookupA (addColumn m name col) n = some t' ∧ t'.sources = t.sources ∧
      t'.targetName = t.targetName := by
  rcases addColumn_cases m name col with he | ⟨t0, hl0, _, he⟩
  · rw [he]; exact ⟨t, h, rfl, rfl⟩
  · by_cases hn : n = name
    · subst hn
      rw [h] at hl0
      injection hl0 with h0
      subst h0
      rw [he, lookupA_setA_self]
      exact ⟨_, rfl, rfl, rfl⟩
    · rw [he, lookupA_setA_ne _ _ _ _ hn]
      exact ⟨t, h, rfl, rfl⟩

/-! ## Column-count facts (claim C2 machinery) -/

theorem count_seed3 (x : String) :
    (["id", "created_at", "updated_at"] : List String).count x ≤ 1 := by
  rcases eq_or_ne x "id" with h | h
  · subst h; decide
  · rcases eq_or_ne x "created_at" with h2 | h2
    · subst h2; decide
    · rcases eq_or_ne x "updated_at" with h3 | h3
      · subst h3; decide
      · have hz : x ∉ (["id", "created_at", "updated_at"] : List String) := by
          simp [h, h2, h3]
        simp [List.count_eq_zero.mpr hz]

theorem colOK_defaultTable (name : String) (layer : ProductLayer) (x : String) :
    (defaultTable name layer).columns.count x ≤ 1 := count_seed3 x

theorem colOK_seedFragment {f : ParsedTableFragment}
    (hnd : f.fields.Nodup) (hid : "id" ∉ f.fields) (x : String)
    (h1 : x ≠ "created_at") (h2 : x ≠ "updated_at") :
    (seedFragment f).columns.count x ≤ 1 := by
  show ((["id", "created_at", "updated_at"] ++ f.fields).count x ≤ 1)
  rw [List.count_append]
  rcases eq_or_ne x "id" with h | h
  · subst h
    rw [List.count_eq_zero.mpr hid]
    decide
  · have hz : (["id", "created_at", "updated_at"] : List String).count x = 0 :=
      List.count_eq_zero.mpr (by simp [h, h1, h2])
    rw [hz]
    simpa using (List.nodup_iff_count_le_one.mp hnd) x

theorem fragsOK_extract (content : String) : FragsOK (extractAll content).2 := by
  unfold extractAll
  split
  · exact fragsOK_parse content
  · intro f hf; simp at hf

/-! ## Layer / target-name invariants of the built map (claim C10 machinery) -/

theorem targetName_inv (rows : List EnhancedMappingRow)
    (frags : List ParsedTableFragment) :
    EntryInv (fun k t => t.targetName = k) (generateTables rows frags) := by
  apply entryInv_generateTables
  · intro f _; rfl
  · intro row _; rfl
  · intro row _; rfl
  · intro k t col h _; exact h
  · intro row _ t h; rw [tableAddMapping_targetName]; exact h

theorem layer_inv (rows : List EnhancedMappingRow)
    (frags : List ParsedTableFragment) (hrows : RowsOK rows) :
    EntryInv (fun k t => (∃ f ∈ frags, f.name = k) ∨ t.layer = detectLayer k)
      (generateTables rows frags) := by
  apply entryInv_generateTables
  · intro f hf; exact Or.inl ⟨f, hf, rfl⟩
  · intro row hrow
    right
    show row.targetLayer.getD .ODP = detectLayer row.targetTable
    rw [(hrows row hrow).2]
    rfl
  · intro row hrow
    right
    show row.sourceLayer.getD .ODP = detectLayer row.sourceTable
    rw [(hrows row hrow).1]
    rfl
  · intro k t col h _; exact h
  · intro row _ t h
    rcases h with h | h
    · exact Or.inl h
    · right; rw [tableAddMapping_layer]; exact h

/-! ## `findOrCreate` facts (claim C6 machinery) -/

theorem findIdx?_get_aux {α : Type} (p : α → Bool) :
    ∀ (l : List α) (s i : Nat), List.findIdx? p l s = some i →
      s ≤ i ∧ ∃ a, l.get? (i - s) = some a ∧ p a = true := by
  intro l
  induction l with
  | nil => intro s i h; simp [List.findIdx?] at h
  | cons a rest ih =>
    intro s i h
    rw [List.findIdx?_cons] at h
    by_cases hp : p a = true
    · rw [if_pos hp] at h
      injection h with he
      subst he
      exact ⟨Nat.le_refl s, a, by simp, hp⟩
    · rw [if_neg hp] at h
      obtain ⟨hle, b, hb, hpb⟩ := ih (s + 1) i h
      refine ⟨by omega, b, ?_, hpb⟩
      have he : i - s = (i - (s + 1)) + 1 := by omega
      rw [he]
      simpa using hb

theorem findIdx?_get {α : Type} (p : α → Bool) {l : List α} {i : Nat}
    (h : l.findIdx? p = some i) : ∃ a, l.get? i = some a ∧ p a = true := by
  have := (findIdx?_get_aux p l 0 i h).2
  simpa using this

theorem findOrCreate_get (ets : List ParsedTableFragment) (name : String)
    (layer : ProductLayer) :
    ∃ fs, ((findOrCreate ets name layer).1).get? (findOrCreate ets name layer).2 =
      some ⟨name, layer, fs⟩ := by
  unfold findOrCreate
  cases hf : ets.findIdx? (fun t => decide (t.name = name ∧ t.layer = layer)) with
  | some i =>
    dsimp only
    obtain ⟨a, ha, hpa⟩ := findIdx?_get _ hf
    simp only [decide_eq_true_eq] at hpa
    refine ⟨a.fields, ?_⟩
    rw [ha]
    congr 1
    cases a
    simp_all
  | none =>
    dsimp only
    refine ⟨[], ?_⟩
    rw [List.get?_append_right (Nat.le_refl _)]
    simp

theorem findOrCreate_ext (ets : List ParsedTableFragment) (name : String)
    (layer : ProductLayer) {j : Nat} {v : ParsedTableFragment}
    (h : ets.get? j = some v) :
    ((findOrCreate ets name layer).1).get? j = some v := by
  unfold findOrCreate
  cases ets.findIdx? (fun t => decide (t.name = name ∧ t.layer = layer)) with
  | some i => exact h
  | none =>
    dsimp only
    rw [List.get?_append (List.get?_eq_some.mp h).1]
    exact h

/-! # The claims -/

deriving instance DecidableEq for Except

/-- C1, counterexample: on `"ODP: SRC\nFDP: TGT\nid -> id"` the single
Mapping Row produced has `sourceTable = "TGT"`, not `"SRC"`: the second
standard header replaced the whole active-table list. -/
theorem claim_C1_counterexample :
    ((parseMarkdownFormat "ODP: SRC\nFDP: TGT\nid -> id").1.map
      fun r => (r.sourceTable, r.targetTable)) = [("TGT", "TGT")] ∧
    ([("TGT", "TGT")] : List (String × String)) ≠ [("SRC", "TGT")] := by
  decide

/-- C1, amended: for the transcript `"ODP: SRC\nFDP: TGT\nid -> id"` the
parse produces exactly one Mapping Row for the arrow line, and that row
has `sourceTable = TGT` and `targetTable = TGT`: a standard header
replaces the whole active-table list with a singleton, so both bare-field
table slots are inherited from the most recent header `TGT`, not from the
earlier `SRC`. -/
theorem claim_C1_arrow_inheritance :
    (parseMarkdownFormat "ODP: SRC\nFDP: TGT\nid -> id").1 =
      [⟨"TGT", "id", "TGT", "id", "STRING", none,
        some ProductLayer.ODP, some ProductLayer.ODP⟩] ∧
    (parseMarkdownFormat "ODP: SRC\nFDP: TGT\nid -> id").2 =
      [⟨"SRC", ProductLayer.ODP, []⟩, ⟨"TGT", ProductLayer.FDP, []⟩] := by
  decide

/-- C4: on the single CSV line
`"raw_customers,customer_id,fdp_customer,id,STRING\n"`, `analyze`
produces exactly two tables — `fdp_customer` (foundational) and
`raw_customers` (origination) — and `fdp_customer` carries exactly one
Source Reference, named `raw_customers`, holding exactly one Field
Mapping `customer_id -> id`. -/
theorem claim_C4_csv_roundtrip :
    ((analyze "raw_customers,customer_id,fdp_customer,id,STRING\n").toOption.map
      fun r => (r.tables.map fun t => (t.targetName, t.layer),
                r.tables.map fun t => (t.targetName, t.sources))) =
    some ([("fdp_customer", ProductLayer.FDP), ("raw_customers", ProductLayer.ODP)],
          [("fdp_customer", [⟨"raw_customers", [⟨"customer_id", "id", ""⟩]⟩]),
           ("raw_customers", [])]) := by
  decide

/-- C8: `detectLayer` is a total pure function returning one of the three
layers; the consumption check runs before the foundational one, so a name
satisfying both marker sets resolves to consumption; and the three
concrete classifications from the spec hold. -/
theorem claim_C8_classifyLayer :
    (∀ name : String,
      detectLayer name = .CDP ∨ detectLayer name = .FDP ∨ detectLayer name = .ODP) ∧
    (∀ name : String, cdpMarkers (lowerStr name) = true →
      fdpMarkers (lowerStr name) = true → detectLayer name = .CDP) ∧
    detectLayer "cdp_orders" = .CDP ∧ detectLayer "fdp_customer" = .FDP ∧
    detectLayer "raw_events" = .ODP := by
  refine ⟨?_, ?_, by decide, by decide, by decide⟩
  · intro name
    unfold detectLayer
    dsimp only
    split
    · exact Or.inl rfl
    · split
      · exact Or.inr (Or.inl rfl)
      · exact Or.inr (Or.inr rfl)
  · intro name hc _
    unfold detectLayer
    dsimp only
    rw [if_pos hc]

/-- C8 witness: `"cdp_foundation"` matches both marker sets and resolves
to consumption. -/
theorem claim_C8_witness :
    cdpMarkers (lowerStr "cdp_foundation") = true ∧
    fdpMarkers (lowerStr "cdp_foundation") = true ∧
    detectLayer "cdp_foundation" = .CDP :=
  ⟨by decide, by decide,
    claim_C8_classifyLayer.2.1 "cdp_foundation" (by decide) (by decide)⟩

/-- C9: every table seeded in phase 1 from an explicit Table Fragment
keeps its layer and synthetic id across phase 2, and its phase-1 column
list stays a leading segment of the final column list — row processing
only appends columns and never overwrites fragment identity. -/
theorem claim_C9_fragment_frame :
    ∀ (rows : List EnhancedMappingRow) (frags : List ParsedTableFragment)
      (n : String) (t1 : TableMetadata),
      lookupA (seedTables frags) n = some t1 →
      ∃ t2, lookupA (generateTables rows frags) n = some t2 ∧
        t2.layer = t1.layer ∧ t2.id = t1.id ∧
        ∃ ext, t2.columns = t1.columns ++ ext := by
  intro rows frags n t1 h
  obtain ⟨t2, h2, hl, hi, _, ext, hc⟩ := preserved_foldl rows (seedTables frags) n t1 h
  exact ⟨t2, h2, hl, hi, ext, hc⟩

def c9frags : List ParsedTableFragment := [⟨"T", .FDP, ["x1"]⟩]

def c9rows : List EnhancedMappingRow :=
  [⟨"S", "a1", "T", "b1", "STRING", none, some .ODP, some .ODP⟩]

/-- C9 witness: a fragment-seeded table `T` (foundational) keeps its
layer and id after a row that targets it with layer ODP. -/
theorem claim_C9_witness :
    ((lookupA (generateTables c9rows c9frags) "T").map
      fun t2 => (t2.layer, t2.id)) = some (ProductLayer.FDP, "fdp-T") := by
  obtain ⟨t2, h2, hl, hi, _⟩ :=
    claim_C9_fragment_frame c9rows c9frags "T"
      (seedFragment ⟨"T", ProductLayer.FDP, ["x1"]⟩) (by decide)
  rw [h2]
  rw [Option.map_some']
  rw [hl, hi]
  decide

/-- C2, counterexample: the transcript `"ODP: T\ncreated_at xx"` succeeds
and yields table `T` whose column list contains `created_at` twice — the
reserved-word filter blocks `id` but not the other two seed names. -/
theorem claim_C2_counterexample :
    ((analyze "ODP: T\ncreated_at xx").toOption.map
      fun r => r.tables.map fun t => t.columns) =
      some [["id", "created_at", "updated_at", "created_at", "xx"]] ∧
    ¬ (["id", "created_at", "updated_at", "created_at", "xx"] : List String).Nodup := by
  decide

/-- C2, amended: in every successful `analyze` result, no name occurs
twice in any table's column list, except that a transcript field
literally named `created_at` or `updated_at` may duplicate the
corresponding default seed column. -/
theorem claim_C2_no_duplicate_columns :
    ∀ (content : String) (res : EnhancedMappingResult), analyze content = .ok res →
      ∀ t ∈ res.tables, ∀ x : String, x ≠ "created_at" → x ≠ "updated_at" →
        t.columns.count x ≤ 1 := by
  intro content res h t ht x h1 h2
  rw [analyze_ok_tables h] at ht
  obtain ⟨k, hk⟩ := valuesA_mem ht
  have hinv : EntryInv
      (fun _ t => ∀ x : String, x ≠ "created_at" → x ≠ "updated_at" →
        t.columns.count x ≤ 1)
      (generateTables (extractAll content).1 (extractAll content).2) := by
    apply entryInv_generateTables
    · intro f hf x hx1 hx2
      have hfr := fragsOK_extract content f hf
      exact colOK_seedFragment hfr.1 hfr.2 x hx1 hx2
    · intro row _ x hx1 hx2; exact colOK_defaultTable _ _ x
    · intro row _ x hx1 hx2; exact colOK_defaultTable _ _ x
    · intro k' t' col hQ hcol x hx1 hx2
      rw [List.count_append]
      rcases eq_or_ne col x with he | he
      · subst he
        rw [List.count_eq_zero.mpr hcol]
        simp
      · have hz : ([col] : List String).count x = 0 :=
          List.count_eq_zero.mpr (by simp [Ne.symm he])
        rw [hz]
        simpa using hQ x hx1 hx2
    · intro row _ t' hQ x hx1 hx2
      rw [tableAddMapping_columns]
      exact hQ x hx1 hx2
  exact hinv (k, t) hk x h1 h2

def c2resW : EnhancedMappingResult :=
  (analyze "a1,b1,c1,d1").toOption.getD ⟨[], [], ⟨0, 0, 0, 0⟩⟩

def c2tblW : TableMetadata := c2resW.tables.headD (defaultTable "" .ODP)

/-- C2 witness: a concrete successful parse in which a probe column name
occurs at most once. -/
theorem claim_C2_witness : c2tblW.columns.count "zz" ≤ 1 :=
  claim_C2_no_duplicate_columns "a1,b1,c1,d1" c2resW (by decide) c2tblW (by decide)
    "zz" (by decide) (by decide)

/-! ## Inputs without word characters (claim C5 machinery)

A character that is not a word character cannot open any layer token
(case-insensitively) and cannot start an arrow capture, so such input
drives no rule of the transcript engine and leaves it in its initial
state; in CSV mode only a line with at least four comma-separated parts
can produce a row. -/

theorem toUpper_of_not_word {c : Char} (h : isWordChar c = false) : c.toUpper = c := by
  unfold Char.toUpper
  dsimp only
  rw [if_neg]
  intro hc
  obtain ⟨h1, h2⟩ := hc
  have hl : c.isLower = true := by
    simp only [Char.isLower, Bool.and_eq_true, decide_eq_true_eq]
    exact ⟨h1, h2⟩
  have hw : isWordChar c = true := by
    simp [isWordChar, Char.isAlphanum, Char.isAlpha, hl]
  rw [h] at hw
  exact Bool.noConfusion hw

theorem beq_letter_false {c t : Char} (h : isWordChar c = false)
    (ht : isWordChar t = true) : (c == t) = false := by
  by_cases he : c = t
  · subst he; rw [h] at ht; exact Bool.noConfusion ht
  · simpa using he

theorem matchCI_head_none (t : Char) (ht : isWordChar t = true) {c : Char}
    (h : isWordChar c = false) (ts cs : List Char) :
    matchCI (t :: ts) (c :: cs) = none := by
  unfold matchCI
  rw [toUpper_of_not_word h, beq_letter_false h ht]
  simp

theorem firstTokenMatch_none_of_not_word {c : Char} (h : isWordChar c = false)
    (cs : List Char) : firstTokenMatch (c :: cs) = none := by
  apply List.findSome?_eq_none.mpr
  intro tok htok
  have hm : matchCI tok (c :: cs) = none := by
    simp only [layerTokenData, List.map_cons, List.map_nil, List.mem_cons,
      List.not_mem_nil, or_false] at htok
    rcases htok with rfl | rfl | rfl | rfl | rfl | rfl
    · exact matchCI_head_none 'O' (by decide) h _ cs
    · exact matchCI_head_none 'F' (by decide) h _ cs
    · exact matchCI_head_none 'C' (by decide) h _ cs
    · exact matchCI_head_none 'R' (by decide) h _ cs
    · exact matchCI_head_none 'F' (by decide) h _ cs
    · exact matchCI_head_none 'C' (by decide) h _ cs
  rw [hm]
  rfl

theorem dotMatchAt_none_of_not_word {c : Char} (h : isWordChar c = false)
    (cs : List Char) : dotMatchAt (c :: cs) = none := by
  unfold dotMatchAt
  rw [firstTokenMatch_none_of_not_word h cs]

theorem scanDotGo_nil_of_not_word :
    ∀ (s : List Char), (∀ c ∈ s, isWordChar c = false) →
      ∀ (prev : Bool) (skip : Nat), scanDotGo s prev skip = [] := by
  intro s
  induction s with
  | nil => intro _ prev skip; rfl
  | cons c rest ih =>
    intro h prev skip
    have hrest : ∀ c' ∈ rest, isWordChar c' = false :=
      fun c' hc' => h c' (by simp [hc'])
    unfold scanDotGo
    by_cases hs : skip > 0
    · rw [if_pos hs]
      exact ih hrest _ _
    · rw [if_neg hs]
      by_cases hp : prev = true
      · rw [if_pos hp]
        exact ih hrest _ _
      · rw [if_neg hp]
        rw [dotMatchAt_none_of_not_word (h c (by simp)) rest]
        exact ih hrest _ _

theorem scanDot_nil_of_not_word {line : List Char}
    (h : ∀ c ∈ line, isWordChar c = false) : scanDot line = [] :=
  scanDotGo_nil_of_not_word line h false 0

theorem standardMatchFn_none_of_not_word {line : List Char}
    (h : ∀ c ∈ line, isWordChar c = false) : standardMatchFn line = none := by
  unfold standardMatchFn
  cases line with
  | nil => decide
  | cons c cs =>
    rw [firstTokenMatch_none_of_not_word (h c (by simp)) cs]

theorem arrowAt_none_of_not_word {c : Char} (h : isWordChar c = false)
    (cs : List Char) : arrowAt (c :: cs) = none := by
  unfold arrowAt
  rw [List.takeWhile_cons_of_neg (by simp [h])]
  simp

theorem arrowScan_none_of_not_word :
    ∀ {line : List Char}, (∀ c ∈ line, isWordChar c = false) →
      arrowScan line = none := by
  intro line
  induction line with
  | nil => intro _; rfl
  | cons c rest ih =>
    intro h
    unfold arrowScan
    rw [arrowAt_none_of_not_word (h c (by simp)) rest]
    exact ih (fun c' hc' => h c' (by simp [hc']))

theorem stepLine_of_not_word {st : MDState} (hact : st.activeTables = [])
    {line : List Char} (h : ∀ c ∈ line, isWordChar c = false) :
    stepLine st line = st := by
  unfold stepLine
  dsimp only
  rw [scanDot_nil_of_not_word h]
  have hni : (([] : List (List Char × List Char)).isEmpty = true) := rfl
  rw [if_pos hni]
  rw [standardMatchFn_none_of_not_word h]
  dsimp only
  rw [arrowScan_none_of_not_word h]
  dsimp only
  unfold applyLooseRule
  rw [hact]
  rfl

theorem splitOnChGo_subset (sep : Char) :
    ∀ (l acc seg : List Char), seg ∈ splitOnChGo sep l acc →
      ∀ c ∈ seg, c ∈ l ∨ c ∈ acc := by
  intro l
  induction l with
  | nil =>
    intro acc seg hseg c hc
    simp only [splitOnChGo, List.mem_singleton] at hseg
    subst hseg
    right
    exact List.mem_reverse.mp hc
  | cons x rest ih =>
    intro acc seg hseg c hc
    unfold splitOnChGo at hseg
    by_cases hx : (x == sep) = true
    · rw [if_pos hx] at hseg
      rcases List.mem_cons.mp hseg with he | hm
      · subst he
        right
        exact List.mem_reverse.mp hc
      · rcases ih [] seg hm c hc with h' | h'
        · left; simp [h']
        · simp at h'
    · rw [if_neg hx] at hseg
      rcases ih (x :: acc) seg hseg c hc with h' | h'
      · left; simp [h']
      · rcases List.mem_cons.mp h' with he | hm
        · left; simp [he]
        · right; exact hm

theorem splitOnCh_subset {sep : Char} {l seg : List Char}
    (hseg : seg ∈ splitOnCh sep l) {c : Char} (hc : c ∈ seg) : c ∈ l := by
  rcases splitOnChGo_subset sep l [] seg hseg c hc with h | h
  · exact h
  · simp at h

theorem jsTrim_subset {l : List Char} {c : Char} (hc : c ∈ jsTrim l) : c ∈ l := by
  unfold jsTrim at hc
  rw [List.mem_reverse] at hc
  have h1 := (List.dropWhile_sublist _).subset hc
  rw [List.mem_reverse] at h1
  exact (List.dropWhile_sublist _).subset h1

theorem mdLines_subset {content : String} {l : List Char} (hl : l ∈ mdLines content)
    {c : Char} (hc : c ∈ l) : c ∈ content.data := by
  unfold mdLines at hl
  have hl' := (List.mem_filter.mp hl).1
  obtain ⟨seg, hseg, he⟩ := List.mem_map.mp hl'
  exact splitOnCh_subset hseg (jsTrim_subset (he ▸ hc))

theorem parseMarkdownFormat_of_not_word {content : String}
    (hw : ∀ c ∈ content.data, isWordChar c = false) :
    parseMarkdownFormat content = ([], []) := by
  unfold parseMarkdownFormat
  dsimp only
  have hfold : (mdLines content).foldl stepLine ⟨[], [], []⟩ =
      (⟨[], [], []⟩ : MDState) := by
    refine foldl_inv stepLine (fun st => st = ⟨[], [], []⟩) _ _ rfl ?_
    intro st l hl hst
    subst hst
    exact stepLine_of_not_word rfl (fun c hc => hw c (mdLines_subset hl hc))
  rw [hfold]

theorem parseCSV_nil_of_short_lines {content : String}
    (hcsv : ∀ l ∈ splitOnCh '\n' (jsTrim content.data),
      (splitOnCh ',' (jsTrim l)).length < 4) :
    parseCSV content = [] := by
  unfold parseCSV
  refine foldl_inv _ (fun rows => rows = []) _ [] rfl ?_
  intro rows l hl hrows
  subst hrows
  dsimp only
  by_cases hs : csvSkip (jsTrim l) = true
  · rw [if_pos hs]
  · rw [if_neg hs]
    have hnone : csvRow (jsTrim l) = none := by
      unfold csvRow
      dsimp only
      rw [if_pos (by rw [List.length_map]; exact hcsv l hl)]
    rw [hnone]

theorem analyze_error_of_empty {content : String}
    (h1 : (extractAll content).1 = []) (h2 : (extractAll content).2 = []) :
    ∃ e, analyze content = .error e := by
  unfold analyze
  dsimp only
  rw [if_pos (by simp [h1, h2])]
  exact ⟨_, rfl⟩

/-- C5, counterexample: `",,,"` consists only of punctuation (no
alphanumeric and no whitespace characters), yet `analyze` succeeds on it:
in CSV mode the line splits into four (empty) comma-separated fields and
yields a Mapping Row. -/
theorem claim_C5_counterexample :
    (",,,".data.all fun c => !(c.isAlphanum || isJsSpace c)) = true ∧
    (analyze ",,,").toOption.isSome = true := by
  decide

/-- C5, amended: `analyze` raises the unrecognized-input error exactly
when the extraction phase produced zero Mapping Rows and zero Table
Fragments; the empty string raises it; and every input containing no
word character (no alphanumeric and no underscore — in particular input
made of punctuation other than `_`) raises it, unless one of its lines
splits into at least four comma-separated fields, in which case a CSV
Mapping Row of punctuation or empty names can be extracted and `analyze`
succeeds, as the counterexample `",,,"` shows. -/
theorem claim_C5_error_iff_nothing_extracted :
    (∀ content : String,
      (∃ e, analyze content = .error e) ↔
        ((extractAll content).1 = [] ∧ (extractAll content).2 = [])) ∧
    analyze "" = .error "No valid mapping data found. Please check the input format." ∧
    (∀ content : String,
      (content.data.all fun c => !isWordChar c) = true →
      (∀ l ∈ splitOnCh '\n' (jsTrim content.data),
        (splitOnCh ',' (jsTrim l)).length < 4) →
      ∃ e, analyze content = .error e) := by
  refine ⟨?_, by decide, ?_⟩
  · intro content
    unfold analyze
    dsimp only
    constructor
    · intro ⟨e, he⟩
      by_cases hc : ((extractAll content).1.isEmpty && (extractAll content).2.isEmpty) = true
      · simp only [Bool.and_eq_true] at hc
        exact ⟨List.isEmpty_iff.mp hc.1, List.isEmpty_iff.mp hc.2⟩
      · rw [if_neg hc] at he
        exact Except.noConfusion he
    · intro ⟨h1, h2⟩
      rw [if_pos (by simp [h1, h2])]
      exact ⟨_, rfl⟩
  · intro content hwall hcsv
    have hw : ∀ c ∈ content.data, isWordChar c = false := by
      intro c hc
      have hh := List.all_eq_true.mp hwall c hc
      simpa using hh
    have hempty : (extractAll content).1 = [] ∧ (extractAll content).2 = [] := by
      unfold extractAll
      by_cases hm : hasTranscriptMarker content = true
      · rw [if_pos hm, parseMarkdownFormat_of_not_word hw]
        exact ⟨rfl, rfl⟩
      · rw [if_neg hm]
        exact ⟨parseCSV_nil_of_short_lines hcsv, rfl⟩
    exact analyze_error_of_empty hempty.1 hempty.2

/-- C5 witness: the iff applied at the punctuation-only input `",,,"`
(whose extraction is non-empty) shows it does not error, and the
punctuation universal applied at `"!!!"` (word-character-free, no line
with four comma-separated fields) shows that input does error. -/
theorem claim_C5_witness :
    (¬ ∃ e, analyze ",,," = Except.error e) ∧
    (∃ e, analyze "!!!" = Except.error e) := by
  constructor
  · intro he
    have h := (claim_C5_error_iff_nothing_extracted.1 ",,,").mp he
    have h1 : (extractAll ",,,").1 ≠ [] := by decide
    exact h1 h.1
  · exact claim_C5_error_iff_nothing_extracted.2.2 "!!!" (by decide) (by decide)

/-- The sources-related invariant holds of every built table. -/
theorem tblSourcesOK_generateTables (rows : List EnhancedMappingRow)
    (frags : List ParsedTableFragment) :
    EntryInv (fun _ t => TblSourcesOK t) (generateTables rows frags) := by
  apply entryInv_generateTables
  · intro f _; exact tblSourcesOK_seedFragment f
  · intro row _; exact tblSourcesOK_default _ _
  · intro row _; exact tblSourcesOK_default _ _
  · intro k t col hQ _; exact hQ
  · intro row _ t hQ; exact tblSourcesOK_addMapping row hQ

/-- C7: (1) in every table the graph builder produces, no Source
Reference carries two Field Mappings with the same target field; (2)
first wins — processing one more row whose target field is already mapped
in the matching Source Reference leaves the target table's source list
(and so the earlier mapping) unchanged, without error. -/
theorem claim_C7_no_duplicate_target_fields :
    (∀ (rows : List EnhancedMappingRow) (frags : List ParsedTableFragment),
      ∀ t ∈ valuesA (generateTables rows frags), ∀ s ∈ t.sources,
        (s.mappings.map FieldMapping.targetField).Nodup) ∧
    (∀ (rows : List EnhancedMappingRow) (frags : List ParsedTableFragment)
       (r : EnhancedMappingRow) (t : TableMetadata) (s : SourceAsset),
      lookupA (generateTables rows frags) r.targetTable = some t →
      s ∈ t.sources → s.name = r.sourceTable →
      (∃ mp ∈ s.mappings, mp.targetField = r.targetField) →
      ∃ t', lookupA (generateTables (rows ++ [r]) frags) r.targetTable = some t' ∧
        t'.sources = t.sources) := by
  constructor
  · intro rows frags t ht s hs
    obtain ⟨k, hk⟩ := valuesA_mem ht
    exact ((tblSourcesOK_generateTables rows frags) (k, t) hk).2 s hs
  · intro rows frags r t s hl hs hname hdup
    have hOK : TblSourcesOK t :=
      (tblSourcesOK_generateTables rows frags) (r.targetTable, t) (lookupA_mem hl)
    have hfold : generateTables (rows ++ [r]) frags =
        processRow (generateTables rows frags) r := by
      unfold generateTables
      rw [List.foldl_append]
      simp only [List.foldl_cons, List.foldl_nil]
    rw [hfold]
    obtain ⟨t2, hl2, hsrc2, _⟩ :=
      addColumn_sources r.targetTable r.targetField
        (ensure_lookup_of_some r.targetTable (r.targetLayer.getD .ODP) hl)
    have hl3 := ensure_lookup_of_some r.sourceTable (r.sourceLayer.getD .ODP) hl2
    obtain ⟨t4, hl4, hsrc4, _⟩ := addColumn_sources r.sourceTable r.sourceField hl3
    have hfrozen : tableAddMapping t4 r = t4 := by
      have hs4 : s ∈ t4.sources := by rw [hsrc4, hsrc2]; exact hs
      have hnd4 : (t4.sources.map SourceAsset.name).Nodup := by
        rw [hsrc4, hsrc2]; exact hOK.1
      exact tableAddMapping_frozen hs4 hname hnd4 hdup
    show ∃ t', lookupA (addMapping _ r) r.targetTable = some t' ∧ t'.sources = t.sources
    unfold addMapping
    rw [hl4]
    dsimp only
    rw [hfrozen]
    exact ⟨t4, by rw [lookupA_setA_self], by rw [hsrc4, hsrc2]⟩

def c7rows : List EnhancedMappingRow :=
  [⟨"S", "a1", "T", "b1", "STRING", none, some .ODP, some .ODP⟩,
   ⟨"S", "a2", "T", "b2", "STRING", none, some .ODP, some .ODP⟩]

def c7row3 : EnhancedMappingRow :=
  ⟨"S", "a3", "T", "b1", "STRING", none, some .ODP, some .ODP⟩

def c7tblW : TableMetadata :=
  (lookupA (generateTables c7rows []) "T").getD (defaultTable "" .ODP)

def c7srcW : SourceAsset := c7tblW.sources.headD ⟨"", []⟩

/-- C7 witness: concrete two-row build has duplicate-free target fields in
its single source entry, and a third row re-mapping `b1` leaves the
source list unchanged. -/
theorem claim_C7_witness :
    (c7srcW.mappings.map FieldMapping.targetField).Nodup ∧
    ((lookupA (generateTables (c7rows ++ [c7row3]) []) "T").map
      TableMetadata.sources) = some c7tblW.sources := by
  constructor
  · exact (claim_C7_no_duplicate_target_fields.1 c7rows [] c7tblW (by decide)
      c7srcW (by decide))
  · obtain ⟨t', hl', hsrc'⟩ :=
      claim_C7_no_duplicate_target_fields.2 c7rows [] c7row3 c7tblW c7srcW
        (by decide) (by decide) (by decide) (by decide)
    have hl2 : lookupA (generateTables (c7rows ++ [c7row3]) []) "T" = some t' := hl'
    rw [hl2, Option.map_some', hsrc']

/-- C10, counterexample: for `"a -> b\nFDP: Unknown_Source"` the bare
arrow (with no active tables) does produce the
`Unknown_Source -> Unknown_Target` row and both tables appear in the
result, but `Unknown_Source` is foundational, not origination: the later
explicit header claimed that name with layer FDP. -/
theorem claim_C10_counterexample :
    ((extractAll "a -> b\nFDP: Unknown_Source").1.map
      fun r => (r.sourceTable, r.targetTable)) =
        [("Unknown_Source", "Unknown_Target")] ∧
    ((analyze "a -> b\nFDP: Unknown_Source").toOption.map
      fun r => r.tables.map fun t => (t.targetName, t.layer)) =
      some [("Unknown_Source", ProductLayer.FDP),
            ("Unknown_Target", ProductLayer.ODP)] ∧
    ProductLayer.FDP ≠ ProductLayer.ODP := by
  decide

/-- C10, amended: (1) a bare-field arrow line reached with an empty
active-table list is not skipped — it emits a Mapping Row with the
literal tables `Unknown_Source` / `Unknown_Target` (whose inferred layers
are origination); (2) whenever such a row was extracted, the successful
result contains tables named `Unknown_Source` and `Unknown_Target`, and
each is classified as origination provided no explicit table header in
the input declared a fragment with that name. -/
theorem claim_C10_unknown_tables :
    (∀ (st : MDState) (line p1 p3 : List Char),
      (scanDot line).isEmpty = true →
      standardMatchFn line = none →
      arrowScan line = some (p1, [], p3, []) →
      st.activeTables = [] →
      (stepLine st line).rows = st.rows ++
        [⟨"Unknown_Source", String.mk p1, "Unknown_Target", String.mk p3, "STRING",
          none, some ProductLayer.ODP, some ProductLayer.ODP⟩]) ∧
    (∀ (content : String) (res : EnhancedMappingResult) (row : EnhancedMappingRow),
      analyze content = .ok res →
      row ∈ (extractAll content).1 →
      row.sourceTable = "Unknown_Source" →
      row.targetTable = "Unknown_Target" →
      (∃ t ∈ res.tables, t.targetName = "Unknown_Source" ∧
        ((∀ f ∈ (extractAll content).2, f.name ≠ "Unknown_Source") →
          t.layer = ProductLayer.ODP)) ∧
      (∃ t ∈ res.tables, t.targetName = "Unknown_Target" ∧
        ((∀ f ∈ (extractAll content).2, f.name ≠ "Unknown_Target") →
          t.layer = ProductLayer.ODP))) := by
  constructor
  · intro st line p1 p3 hdots hstd harrow hact
    unfold stepLine
    dsimp only
    rw [if_pos hdots, hstd]
    dsimp only
    rw [harrow]
    dsimp only
    unfold applyArrowRule
    dsimp only
    rw [hact]
    have hemp : (String.mk ([] : List Char)).isEmpty = true := by decide
    have hds : detectLayer "Unknown_Source" = ProductLayer.ODP := by decide
    have hdt : detectLayer "Unknown_Target" = ProductLayer.ODP := by decide
    simp [fragNameAt, hemp, hds, hdt]
  · intro content res row hok hrow hsrc htgt
    rw [analyze_ok_tables hok]
    have hpres := generateTables_present (extractAll content).2 hrow
    rw [hsrc, htgt] at hpres
    obtain ⟨tT, htT⟩ := Option.isSome_iff_exists.mp hpres.1
    obtain ⟨tS, htS⟩ := Option.isSome_iff_exists.mp hpres.2
    constructor
    · refine ⟨tS, mem_valuesA (lookupA_mem htS), ?_, ?_⟩
      · exact targetName_inv _ _ (_, tS) (lookupA_mem htS)
      · intro hnof
        rcases layer_inv _ _ (rowsOK_extract content) (_, tS) (lookupA_mem htS)
          with h | h
        · obtain ⟨f, hf, he⟩ := h
          exact absurd he (hnof f hf)
        · rw [h]
          show detectLayer "Unknown_Source" = ProductLayer.ODP
          decide
    · refine ⟨tT, mem_valuesA (lookupA_mem htT), ?_, ?_⟩
      · exact targetName_inv _ _ (_, tT) (lookupA_mem htT)
      · intro hnof
        rcases layer_inv _ _ (rowsOK_extract content) (_, tT) (lookupA_mem htT)
          with h | h
        · obtain ⟨f, hf, he⟩ := h
          exact absurd he (hnof f hf)
        · rw [h]
          show detectLayer "Unknown_Target" = ProductLayer.ODP
          decide

def c10resW : EnhancedMappingResult :=
  (analyze "fieldA -> fieldB").toOption.getD ⟨[], [], ⟨0, 0, 0, 0⟩⟩

def c10rowW : EnhancedMappingRow :=
  (extractAll "fieldA -> fieldB").1.headD ⟨"", "", "", "", "", none, none, none⟩

/-- C10 witness: the concrete bare arrow `"fieldA -> fieldB"` produces
the Unknown row at the step level, and the analyzed result holds both
Unknown tables at origination. -/
theorem claim_C10_witness :
    (stepLine ⟨[], [], []⟩ "fieldA -> fieldB".data).rows =
      [⟨"Unknown_Source", "fieldA", "Unknown_Target", "fieldB", "STRING", none,
        some ProductLayer.ODP, some ProductLayer.ODP⟩] ∧
    ("Unknown_Source", ProductLayer.ODP) ∈
      c10resW.tables.map (fun t => (t.targetName, t.layer)) ∧
    ("Unknown_Target", ProductLayer.ODP) ∈
      c10resW.tables.map (fun t => (t.targetName, t.layer)) := by
  refine ⟨?_, ?_, ?_⟩
  · have h := claim_C10_unknown_tables.1 ⟨[], [], []⟩ "fieldA -> fieldB".data
      "fieldA".data "fieldB".data (by decide) (by decide) (by decide) rfl
    simpa using h
  · obtain ⟨⟨t, ht, hn, hl⟩, _⟩ :=
      claim_C10_unknown_tables.2 "fieldA -> fieldB" c10resW c10rowW
        (by decide) (by decide) (by decide) (by decide)
    exact List.mem_map.mpr ⟨t, ht, by rw [hn, hl (by decide)]⟩
  · obtain ⟨_, ⟨t, ht, hn, hl⟩⟩ :=
      claim_C10_unknown_tables.2 "fieldA -> fieldB" c10resW c10rowW
        (by decide) (by decide) (by decide) (by decide)
    exact List.mem_map.mpr ⟨t, ht, by rw [hn, hl (by decide)]⟩

/-- C3, counterexample: under active tables `T1, T2` the line
`"NULL aa bb"` fires the positional branch (3 candidates ≥ 2 tables,
reserved `NULL` counted), position 0 is consumed by the skipped `NULL`
(so `T1` gets nothing) and position 1 gives `aa` to `T2` — not
`aa -> T1`, `bb -> T2` as the claim predicts after discarding reserved
words first. -/
theorem claim_C3_counterexample :
    ((parseMarkdownFormat "ODP.T1 FDP.T2\nNULL aa bb").2.map
      ParsedTableFragment.fields) = [[], ["aa"]] ∧
    ([[], ["aa"]] : List (List String)) ≠ [["aa"], ["bb"]] := by
  decide

/-- One candidate token offered to one active table, written out from the
amended rule-4 description: a reserved word or an already-present field
is skipped (but has still consumed its position); otherwise the token is
stripped to its word characters and appended when still longer than one
character. -/
def offerToken (ets : List ParsedTableFragment) (j : Nat) (w : List Char) :
    List ParsedTableFragment :=
  match ets.get? j with
  | none => ets
  | some frag =>
    if isReserved w = true ∨ String.mk w ∈ frag.fields then ets
    else if 1 < (w.filter isWordChar).length then
      ets.set j { frag with fields := frag.fields ++ [String.mk (w.filter isWordChar)] }
    else ets

def offerAll (ets : List ParsedTableFragment) :
    List (Nat × List Char) → List ParsedTableFragment
  | [] => ets
  | jw :: rest => offerAll (offerToken ets jw.1 jw.2) rest

/-- Rule 4 as amended: candidates are the whitespace/pipe-separated
chunks of length > 1 made of word characters only — reserved words
included, so they count toward the threshold; with more than one active
table and at least as many candidates, candidate `i` is offered to
active table `i` (a reserved or already-present candidate occupies its
position but inserts nothing); otherwise every candidate is offered to
the last active table. -/
def looseRuleDescribed (st : MDState) (line : List Char) : MDState :=
  let cand := (splitRuns isWsPipe line).filter
    fun w => decide (1 < w.length) && w.all isWordChar
  if st.activeTables.isEmpty then st
  else if 1 < st.activeTables.length ∧ st.activeTables.length ≤ cand.length then
    { st with explicitTables := offerAll st.explicitTables (st.activeTables.zip cand) }
  else
    match st.activeTables.getLast? with
    | none => st
    | some j =>
      { st with explicitTables :=
          offerAll st.explicitTables (cand.map fun w => (j, w)) }

theorem offerToken_eq_push (ets : List ParsedTableFragment) (j : Nat)
    (w : List Char) : offerToken ets j w = pushFieldAt ets j w := by
  unfold offerToken pushFieldAt
  cases ets.get? j with
  | none => rfl
  | some frag =>
    dsimp only
    by_cases h : (isReserved w || frag.fields.contains (String.mk w)) = true
    · rw [if_pos h, if_pos]
      simp only [Bool.or_eq_true] at h
      rcases h with h | h
      · exact Or.inl h
      · exact Or.inr (by simpa using h)
    · rw [if_neg h, if_neg]
      intro hc
      apply h
      rcases hc with hc | hc
      · simp [hc]
      · simp [hc]

theorem offerAll_eq_foldl :
    ∀ (l : List (Nat × List Char)) (ets : List ParsedTableFragment),
      offerAll ets l = l.foldl (fun e p => pushFieldAt e p.1 p.2) ets := by
  intro l
  induction l with
  | nil => intro ets; rfl
  | cons jw rest ih =>
    intro ets
    show offerAll (offerToken ets jw.1 jw.2) rest = _
    rw [offerToken_eq_push, ih]
    rfl

/-- C3, amended: a line reaching rule 4 with a non-empty active-table
list behaves exactly as `looseRuleDescribed`: tokens are filtered for
length and word characters only, reserved words count toward the
threshold and occupy positions in the positional branch, and are skipped
only at insertion time. -/
theorem claim_C3_loose_distribution :
    ∀ (st : MDState) (line : List Char),
      (scanDot line).isEmpty = true →
      standardMatchFn line = none →
      arrowScan line = none →
      st.activeTables ≠ [] →
      stepLine st line = looseRuleDescribed st line := by
  intro st line h1 h2 h3 h4
  have hni : ¬(st.activeTables.isEmpty = true) := by simpa using h4
  unfold stepLine
  dsimp only
  rw [if_pos h1, h2]
  dsimp only
  rw [h3]
  dsimp only
  unfold applyLooseRule looseRuleDescribed looseTokens
  dsimp only
  rw [if_neg hni]
  rw [if_neg hni]
  by_cases hcond : 1 < st.activeTables.length ∧
      st.activeTables.length ≤ ((splitRuns isWsPipe line).filter
        (fun w => decide (1 < w.length) && w.all isWordChar)).length
  · rw [if_pos hcond, if_pos hcond, offerAll_eq_foldl]
  · rw [if_neg hcond, if_neg hcond]
    cases st.activeTables.getLast? with
    | none => rfl
    | some j =>
      dsimp only
      rw [offerAll_eq_foldl, List.foldl_map]

def c3stW : MDState := ⟨[], [⟨"T", .ODP, []⟩], [0]⟩

/-- C3 witness: a concrete loose-field line on a concrete state, with
all three earlier rules not firing. -/
theorem claim_C3_witness :
    stepLine c3stW "aa bb".data = looseRuleDescribed c3stW "aa bb".data :=
  claim_C3_loose_distribution c3stW "aa bb".data (by decide) (by decide)
    (by decide) (by decide)

def c6line1 : List Char := "ODP.CUST FDP.CUST_CLEAN".data

/-- C6: (1) the dot-notation header line replaces the active-table list —
whatever the prior state, after `"ODP.CUST FDP.CUST_CLEAN"` the active
tables are exactly `CUST` (origination) and `CUST_CLEAN` (foundational),
in order; (2) on the two-line transcript the parse creates exactly those
two fragments and positionally assigns `CUST_ID` to `CUST` and `NAME` to
`CUST_CLEAN`; (3) lowering yields exactly two tables with those layers
and fields. -/
theorem claim_C6_dot_header_distribution :
    (∀ st : MDState,
      ((stepLine st c6line1).activeTables.map fun i =>
        ((stepLine st c6line1).explicitTables.get? i).map fun f => (f.name, f.layer)) =
        [some ("CUST", ProductLayer.ODP), some ("CUST_CLEAN", ProductLayer.FDP)]) ∧
    parseMarkdownFormat "ODP.CUST FDP.CUST_CLEAN\nCUST_ID NAME" =
      ([], [⟨"CUST", .ODP, ["CUST_ID"]⟩, ⟨"CUST_CLEAN", .FDP, ["NAME"]⟩]) ∧
    ((valuesA (generateTables []
        [⟨"CUST", .ODP, ["CUST_ID"]⟩, ⟨"CUST_CLEAN", .FDP, ["NAME"]⟩])).map
      fun t => (t.targetName, t.layer, t.columns)) =
      [("CUST", .ODP, ["id", "created_at", "updated_at", "CUST_ID"]),
       ("CUST_CLEAN", .FDP, ["id", "created_at", "updated_at", "NAME"])] := by
  refine ⟨?_, by decide, by decide⟩
  intro st
  have hscan : scanDot c6line1 =
      [("ODP".data, "CUST".data), ("FDP".data, "CUST_CLEAN".data)] := by decide
  unfold stepLine
  dsimp only
  rw [hscan]
  rw [if_neg (by decide)]
  unfold applyDotRule
  dsimp only
  simp only [List.foldl_cons, List.foldl_nil]
  have ht1 : tokenLayer "ODP".data = ProductLayer.ODP := by decide
  have ht2 : tokenLayer "FDP".data = ProductLayer.FDP := by decide
  have hs1 : String.mk "CUST".data = "CUST" := by decide
  have hs2 : String.mk "CUST_CLEAN".data = "CUST_CLEAN" := by decide
  rw [ht1, ht2, hs1, hs2]
  obtain ⟨fs1, hg1⟩ := findOrCreate_get st.explicitTables "CUST" ProductLayer.ODP
  obtain ⟨fs2, hg2⟩ :=
    findOrCreate_get (findOrCreate st.explicitTables "CUST" ProductLayer.ODP).1
      "CUST_CLEAN" ProductLayer.FDP
  have hg1' :=
    findOrCreate_ext (findOrCreate st.explicitTables "CUST" ProductLayer.ODP).1
      "CUST_CLEAN" ProductLayer.FDP hg1
  simp only [List.nil_append, List.singleton_append, List.map_cons, List.map_nil]
  rw [hg1', hg2]
  rfl

/-- C6 witness: the replacement property applied at the empty initial
state. -/
theorem claim_C6_witness :
    ((stepLine ⟨[], [], []⟩ c6line1).activeTables.map fun i =>
      ((stepLine ⟨[], [], []⟩ c6line1).explicitTables.get? i).map
        fun f => (f.name, f.layer)) =
      [some ("CUST", ProductLayer.ODP), some ("CUST_CLEAN", ProductLayer.FDP)] :=
  claim_C6_dot_header_distribution.1 ⟨[], [], []⟩

end CreditRisk
